import Mathlib

/-!
Verification of the natural-language specification of `proxy-relay.py`,
a local forward proxy that injects a `Proxy-Authorization` header and
relays CONNECT tunnels to an upstream proxy.

The embedding models Python strings and byte strings as lists of natural
numbers (code points, respectively byte values 0..255).  Socket I/O is
modelled by explicit chunk lists (the successive results of `recv` calls,
where an empty chunk models a closed peer) and the observable behaviour of
a connection handler is an explicit event trace.
-/

set_option maxHeartbeats 1000000
set_option maxRecDepth 4000

namespace ProxyRelay

/-- Python strings (lists of Unicode code points) and byte strings
(lists of byte values) are both modelled as lists of naturals. -/
abbrev Str := List Nat

/-- Code points of an ASCII Lean string literal. -/
def s2n (s : String) : Str := s.toList.map Char.toNat

def CR : Nat := 13
def LF : Nat := 10
def CRLF : Str := [13, 10]

/-- Index of the first occurrence of `sep` as a contiguous sublist of `s`. -/
def findSub (sep : Str) : Str → Option Nat
  | [] => if sep.isPrefixOf ([] : Str) then some 0 else none
  | a :: t => if sep.isPrefixOf (a :: t) then some 0 else (findSub sep t).map (· + 1)

/-- Python `sep in s`: contiguous substring test. -/
def containsSub (sep s : Str) : Bool := (findSub sep s).isSome

/-- Python `s.split(chr)` restricted to the two-byte separator CRLF,
exactly as used on both header text and response bytes in the source. -/
def splitCRLF : Str → List Str
  | [] => [[]]
  | [a] => [[a]]
  | a :: b :: t =>
    if a = 13 ∧ b = 10 then [] :: splitCRLF t
    else
      match splitCRLF (b :: t) with
      | [] => [[a]]
      | h :: r => (a :: h) :: r

/-- Contiguous occurrence test for the two-byte CRLF separator. -/
def containsCRLF : Str → Bool
  | [] => false
  | [_] => false
  | a :: b :: t => (a = 13 && b = 10) || containsCRLF (b :: t)

/-- Whether the four-byte terminator CR LF CR LF occurs in `s`
(Python `crlfcrlf in data`). -/
def hasCRLFCRLF : Str → Bool
  | 13 :: 10 :: 13 :: 10 :: _ => true
  | _ :: t => hasCRLFCRLF t
  | [] => false

/-- Index of the first occurrence of CR LF CR LF (Python `data.index`);
returns the length when the terminator is absent (unused in that case). -/
def idxCRLFCRLF : Str → Nat
  | 13 :: 10 :: 13 :: 10 :: _ => 0
  | _ :: t => idxCRLFCRLF t + 1
  | [] => 0

/-- ASCII lower-casing, modelling Python `str.lower` on the ASCII range
(the only range relevant to the header names compared in the source). -/
def lowerAscii (s : Str) : Str := s.map (fun c => if 65 ≤ c ∧ c ≤ 90 then c + 32 else c)

/-- ASCII upper-casing, modelling Python `str.upper` on the ASCII range. -/
def upperAscii (s : Str) : Str := s.map (fun c => if 97 ≤ c ∧ c ≤ 122 then c - 32 else c)

/-- The literal scheme string removed by `url.replace("http://", "")`. -/
def httpScheme : Str := s2n "http://"

/-- Python `url.replace("http://", "")`: removes every occurrence of the
literal `http://` (code points 104 116 116 112 58 47 47), scanning left to
right and continuing after each removed occurrence. -/
def stripHttp : Str → Str
  | 104 :: 116 :: 116 :: 112 :: 58 :: 47 :: 47 :: t => stripHttp t
  | a :: t => a :: stripHttp t
  | [] => []

/-- Index of the first occurrence of character `c` (for `split(c, 1)`). -/
def findFirstChar (c : Nat) : Str → Option Nat
  | [] => none
  | a :: t => if a = c then some 0 else (findFirstChar c t).map (· + 1)

/-- Python `s.split(c, 1)` when `c` occurs in `s`: split at the first
occurrence; `none` models the single-element result whose unpacking into
two variables raises `ValueError`. -/
def splitOnceChar (c : Nat) (s : Str) : Option (Str × Str) :=
  (findFirstChar c s).map (fun i => (s.take i, s.drop (i + 1)))

/-- Index of the last occurrence of character `c` (for `rsplit(c, 1)`). -/
def findLastChar (c : Nat) : Str → Option Nat
  | [] => none
  | a :: t =>
    match findLastChar c t with
    | some i => some (i + 1)
    | none => if a = c then some 0 else none

/-- Python `s.rsplit(c, 1)` when `c` occurs in `s`: split at the last
occurrence. -/
def rsplitOnceChar (c : Nat) (s : Str) : Option (Str × Str) :=
  (findLastChar c s).map (fun i => (s.take i, s.drop (i + 1)))

/-- Python `s.split(c)` for a single-character separator. -/
def splitAllChar (c : Nat) : Str → List Str
  | [] => [[]]
  | a :: t =>
    if a = c then [] :: splitAllChar c t
    else
      match splitAllChar c t with
      | [] => [[a]]
      | h :: r => (a :: h) :: r

def isDigitN (c : Nat) : Bool := decide (48 ≤ c ∧ c ≤ 57)

def isSpaceN (c : Nat) : Bool := c = 32 || c = 9 || c = 10 || c = 13 || c = 11 || c = 12

/-- Numeric value of a digit string. -/
def natOfDigits (s : Str) : Nat := s.foldl (fun acc d => acc * 10 + (d - 48)) 0

/-- Python `int(s)` on a decimal string: optional surrounding ASCII
whitespace, an optional single sign, then a non-empty run of digits;
`none` models the `ValueError` raised otherwise.  (Underscore digit
grouping, accepted by CPython, is not modelled; no claim depends on it.) -/
def pyInt (s : Str) : Option Int :=
  let s1 := ((s.dropWhile isSpaceN).reverse.dropWhile isSpaceN).reverse
  let sign : Int := if s1.headD 0 = 45 then -1 else 1
  let digits := if s1.headD 0 = 45 ∨ s1.headD 0 = 43 then s1.tail else s1
  if digits ≠ [] ∧ digits.all isDigitN then some (sign * (natOfDigits digits : Int)) else none

/-- The result type of the Config Resolver: host, port, optional user,
optional password. -/
abbrev Target := Str × Int × Option Str × Option Str

/-- Embedding of `parse_proxy_url` (src/proxy-relay.py lines 19-29).
`none` models an uncaught exception (`ValueError` from tuple unpacking of
`split` results or from `int`). -/
def parse_proxy_url (url : Str) : Option Target :=
  let u := stripHttp url
  if 64 ∈ u then
    match rsplitOnceChar 64 u with
    | none => none
    | some (creds, hostport) =>
      match splitOnceChar 58 creds with
      | none => none
      | some (user, password) =>
        match splitAllChar 58 hostport with
        | [h, p] => (pyInt p).map (fun n => (h, n, some user, some password))
        | _ => none
  else
    match splitAllChar 58 u with
    | [h, p] => (pyInt p).map (fun n => (h, n, none, none))
    | _ => none

/-- The credentials part produced by `creds, hostport = url.rsplit("@", 1)`
(meaningful when `@` occurs in the stripped URL). -/
def credsPart (u : Str) : Str := ((rsplitOnceChar 64 u).getD ([], [])).1

/-- The host-port part of the stripped URL: the text after the last `@`
when one is present, the whole string otherwise. -/
def hostportPart (u : Str) : Str :=
  if 64 ∈ u then ((rsplitOnceChar 64 u).getD ([], [])).2 else u

/-- The header name tested by
`l.lower().startswith("proxy-authorization:")`. -/
def authPat : Str := s2n "proxy-authorization:"

/-- Whether a header line is dropped by the rewriter. -/
def isAuthLine (l : Str) : Bool := authPat.isPrefixOf (lowerAscii l)

/-- The loop `for h in other_headers: if h: new_headers += h + "\r\n"`:
serializes the retained header lines, silently skipping empty ones. -/
def buildHeaderLines : List Str → Str
  | [] => []
  | h :: t => (if h = [] then [] else h ++ CRLF) ++ buildHeaderLines t

/-- Embedding of the request rewrite (src/proxy-relay.py lines 71-80):
request line, then the configured auth header text, then the retained
original header lines, then the terminating blank line. -/
def rewriteRequest (headersTxt auth : Str) : Str :=
  (splitCRLF headersTxt).headD [] ++ CRLF ++ auth ++
    buildHeaderLines (((splitCRLF headersTxt).tail).filter (fun l => !(isAuthLine l))) ++ CRLF

/-- CRLF-terminated serialization of a list of lines (specification-side
description of `buildHeaderLines` when no line is empty). -/
def joinTerm : List Str → Str
  | [] => []
  | h :: t => h ++ CRLF ++ joinTerm t

/-- The Unicode replacement character U+FFFD. -/
def FFFD : Nat := 65533

/-- Whether a byte is a UTF-8 continuation byte (0x80-0xBF). -/
def contOk (b : Nat) : Bool := decide (128 ≤ b ∧ b ≤ 191)

/-- Lower bound for the second byte of a multi-byte UTF-8 sequence,
depending on the lead byte (0xE0 needs 0xA0.., 0xF0 needs 0x90..). -/
def cont2lo (b1 : Nat) : Nat := if b1 = 224 then 160 else if b1 = 240 then 144 else 128

/-- Upper bound for the second byte of a multi-byte UTF-8 sequence,
depending on the lead byte (0xED allows ..0x9F, 0xF4 allows ..0x8F). -/
def cont2hi (b1 : Nat) : Nat := if b1 = 237 then 159 else if b1 = 244 then 143 else 191

/-- Whether `b2` is a valid second byte after lead byte `b1`. -/
def cont2Ok (b1 b2 : Nat) : Bool := decide (cont2lo b1 ≤ b2 ∧ b2 ≤ cont2hi b1)

/-- UTF-8 decoding with `errors="replace"` (Python
`bytes.decode("utf-8", errors="replace")`): each maximal invalid or
truncated subsequence is replaced by one U+FFFD, following the Unicode
best practice CPython implements (overlongs, surrogates and values above
U+10FFFF are invalid at the second byte). -/
def decodeU : Str → Str
  | [] => []
  | b1 :: t =>
    if b1 ≤ 127 then b1 :: decodeU t
    else if b1 ≤ 193 then FFFD :: decodeU t
    else if b1 ≤ 223 then
      match t with
      | [] => [FFFD]
      | b2 :: t2 =>
        if contOk b2 then ((b1 - 192) * 64 + (b2 - 128)) :: decodeU t2
        else FFFD :: decodeU (b2 :: t2)
    else if b1 ≤ 239 then
      match t with
      | [] => [FFFD]
      | b2 :: t2 =>
        if cont2Ok b1 b2 then
          match t2 with
          | [] => [FFFD]
          | b3 :: t3 =>
            if contOk b3 then ((b1 - 224) * 4096 + (b2 - 128) * 64 + (b3 - 128)) :: decodeU t3
            else FFFD :: decodeU (b3 :: t3)
        else FFFD :: decodeU (b2 :: t2)
    else if b1 ≤ 244 then
      match t with
      | [] => [FFFD]
      | b2 :: t2 =>
        if cont2Ok b1 b2 then
          match t2 with
          | [] => [FFFD]
          | b3 :: t3 =>
            if contOk b3 then
              match t3 with
              | [] => [FFFD]
              | b4 :: t4 =>
                if contOk b4 then
                  ((b1 - 240) * 262144 + (b2 - 128) * 4096 + (b3 - 128) * 64 + (b4 - 128))
                    :: decodeU t4
                else FFFD :: decodeU (b4 :: t4)
            else FFFD :: decodeU (b3 :: t3)
        else FFFD :: decodeU (b2 :: t2)
    else FFFD :: decodeU t

/-- Whether a byte string is valid UTF-8 (same case analysis as
`decodeU`, with `false` wherever `decodeU` would emit U+FFFD). -/
def validU : Str → Bool
  | [] => true
  | b1 :: t =>
    if b1 ≤ 127 then validU t
    else if b1 ≤ 193 then false
    else if b1 ≤ 223 then
      match t with
      | [] => false
      | b2 :: t2 => contOk b2 && validU t2
    else if b1 ≤ 239 then
      match t with
      | [] => false
      | b2 :: t2 =>
        cont2Ok b1 b2 &&
          match t2 with
          | [] => false
          | b3 :: t3 => contOk b3 && validU t3
    else if b1 ≤ 244 then
      match t with
      | [] => false
      | b2 :: t2 =>
        cont2Ok b1 b2 &&
          match t2 with
          | [] => false
          | b3 :: t3 =>
            contOk b3 &&
              match t3 with
              | [] => false
              | b4 :: t4 => contOk b4 && validU t4
    else false

/-- UTF-8 encoding of one Unicode scalar value. -/
def encodeChar (c : Nat) : Str :=
  if c ≤ 127 then [c]
  else if c ≤ 2047 then [192 + c / 64, 128 + c % 64]
  else if c ≤ 65535 then [224 + c / 4096, 128 + c / 64 % 64, 128 + c % 64]
  else [240 + c / 262144, 128 + c / 4096 % 64, 128 + c / 64 % 64, 128 + c % 64]

/-- UTF-8 encoding of a string of scalar values (Python `str.encode()`;
the strings it is applied to in the source contain only scalar values,
since they come from `decodeU` output and ASCII literals). -/
def encodeU (s : Str) : Str := (s.map encodeChar).flatten

/-- Whether a code point is a Unicode scalar value. -/
def isScalar (c : Nat) : Bool := decide (c < 1114112 ∧ ¬(55296 ≤ c ∧ c ≤ 57343))

/-- Strict UTF-8 decoding (Python `bytes.decode()` with no error
handler): `none` models the `UnicodeDecodeError` on invalid input; on
valid input it agrees with the replacing decoder. -/
def decodeStrict (s : Str) : Option Str := if validU s then some (decodeU s) else none

/-- The loop at src/proxy-relay.py lines 54-60: accumulate client chunks
until the terminator CR LF CR LF is observed; a `recv` returning no bytes
(an empty chunk, or exhaustion of the chunk list, both modelling a closed
peer) before the terminator makes the handler close the client socket and
return, modelled as `none`. -/
def readRequest (acc : Str) : List Str → Option Str
  | [] => if hasCRLFCRLF acc then some acc else none
  | c :: rest =>
    if hasCRLFCRLF acc then some acc
    else if c = [] then none
    else readRequest (acc ++ c) rest

/-- The loop at src/proxy-relay.py lines 86-91: accumulate upstream
response chunks until the terminator is observed; an upstream close
merely breaks the loop, keeping the partial response. -/
def readResp (acc : Str) : List Str → Str
  | [] => acc
  | c :: rest =>
    if hasCRLFCRLF acc then acc
    else if c = [] then acc
    else readResp (acc ++ c) rest

/-- The bytes `upstream.sendall(new_headers.encode() + rest)` transmits
(line 82): the rewritten header block re-encoded, then the body bytes
already read past the terminator, verbatim. -/
def upstreamPayload (data auth : Str) : Str :=
  encodeU (rewriteRequest (decodeU (data.take (idxCRLFCRLF data))) auth)
    ++ data.drop (idxCRLFCRLF data + 4)

/-- The parsed request line of the accumulated request bytes. -/
def reqLineTxt (data : Str) : Str :=
  (splitCRLF (decodeU (data.take (idxCRLFCRLF data)))).headD []

/-- The test `request_line.upper().startswith("CONNECT")` (line 84). -/
def isConnectReq (data : Str) : Bool :=
  (s2n "CONNECT").isPrefixOf (upperAscii (reqLineTxt data))

/-- The tunnel-established check (lines 96-98):
`resp.split(b"\r\n")[0].decode()` followed by `" 200 " in resp_line`;
`none` models the `UnicodeDecodeError` on a non-UTF-8 first line, which
the handler's `except` clause catches. -/
def tunnelOk (resp : Str) : Option Bool :=
  match decodeStrict ((splitCRLF resp).headD []) with
  | none => none
  | some line => some (containsSub (s2n " 200 ") line)

/-- Injected failure points, modelling an exception raised by the named
socket operation in `handle_client` (connect at line 69, the upstream
`sendall` at line 82, the client `sendall` at line 94). `noFail` is the
run in which every socket operation succeeds. -/
inductive FailPoint
  | noFail
  | connectFail
  | sendUpstreamFail
  | sendClientFail
deriving DecidableEq

/-- Observable events of one `handle_client` run. -/
inductive Ev
  | closeClient
  | openUpstream
  | sendUpstream (bs : Str)
  | sendClient (bs : Str)
  | startRelayCU
  | startRelayUC
  | stderrTunnelFailed
  | stderrException
  | closeUpstreamReal
  | closeUpstreamNoop
deriving DecidableEq

/-- The `finally` block (lines 116-124): always close the client socket,
then attempt `upstream.close()` — a real close when the upstream socket
object exists, a swallowed `NameError` otherwise. -/
def finallyEvs (upDefined : Bool) : List Ev :=
  [Ev.closeClient, if upDefined then Ev.closeUpstreamReal else Ev.closeUpstreamNoop]

/-- Event trace of `handle_client` (src/proxy-relay.py lines 51-124) on a
session whose client sends `clientChunks`, whose upstream answers
`upstreamChunks`, with failure injection `fail` and configured auth text
`auth`.  Thread starts are events; the relayed bytes themselves are the
subject of `relayWrites`. -/
def handleTrace (clientChunks upstreamChunks : List Str) (fail : FailPoint) (auth : Str) :
    List Ev :=
  match readRequest [] clientChunks with
  | none => Ev.closeClient :: finallyEvs false
  | some data =>
    if fail = FailPoint.connectFail then Ev.stderrException :: finallyEvs true
    else
      Ev.openUpstream ::
        (if fail = FailPoint.sendUpstreamFail then Ev.stderrException :: finallyEvs true
         else
           Ev.sendUpstream (upstreamPayload data auth) ::
             (if isConnectReq data then
               if fail = FailPoint.sendClientFail then Ev.stderrException :: finallyEvs true
               else
                 Ev.sendClient (readResp [] upstreamChunks) ::
                   (match tunnelOk (readResp [] upstreamChunks) with
                    | none => Ev.stderrException :: finallyEvs true
                    | some true => Ev.startRelayCU :: Ev.startRelayUC :: finallyEvs true
                    | some false => Ev.stderrTunnelFailed :: finallyEvs true)
              else Ev.startRelayUC :: finallyEvs true))

/-- Observable events of one relay pump. -/
inductive REv
  | write (bs : Str)
  | shutdownWR
deriving DecidableEq

/-- The chunks the `relay` loop (lines 36-44) forwards: source chunks in
order, stopping at the first empty chunk (peer closed), at exhaustion, or
at the step (if any) at which a read/write error is injected. -/
def relayWrites : List Str → Option Nat → List Str
  | [], _ => []
  | c :: rest, e =>
    if e = some 0 then []
    else if c = [] then []
    else c :: relayWrites rest (e.map (· - 1))

/-- Event trace of one `relay` pump (lines 36-49): the forwarded writes
in order, then the unconditional `dst.shutdown(socket.SHUT_WR)` of the
`finally` block.  `errAt` injects a socket error at the given iteration;
the pump then stops silently. -/
def relayTrace (chunks : List Str) (errAt : Option Nat) : List REv :=
  (relayWrites chunks errAt).map REv.write ++ [REv.shutdownWR]

/-- The index at which the pump stops: the first empty chunk, the
injected error step, or exhaustion, whichever comes first. -/
def relayStop (chunks : List Str) (errAt : Option Nat) : Nat :=
  min (chunks.findIdx (fun c => c.isEmpty))
    (match errAt with | none => chunks.length | some k => k)

/-- Number of upstream-connection events in a trace. -/
def countOpenUpstream (tr : List Ev) : Nat :=
  tr.countP (fun e => e = Ev.openUpstream)

/-- Observable events of process startup (`main`, lines 126-144). -/
inductive MainEv
  | stderrConfigMsg
  | stderrUncaught
  | exitNonzero
  | bindListen
  | startupLog
  | serveForever
deriving DecidableEq

/-- Event trace of `main` given the resolved upstream proxy environment
value (`none` when no candidate variable is set; the empty string is
falsy in Python and takes the same branch).  An uncaught exception from
`parse_proxy_url` is reported by the interpreter on the error stream and
terminates the process with a non-zero status, before the listening
socket is ever created. -/
def mainTrace (cfg : Option Str) : List MainEv :=
  match cfg with
  | none => [MainEv.stderrConfigMsg, MainEv.exitNonzero]
  | some url =>
    if url = [] then [MainEv.stderrConfigMsg, MainEv.exitNonzero]
    else
      match parse_proxy_url url with
      | none => [MainEv.stderrUncaught, MainEv.exitNonzero]
      | some _ => [MainEv.bindListen, MainEv.startupLog, MainEv.serveForever]

/-- The header bytes the rewriter forwards upstream: the client's header
block decoded with replacement, rewritten, and re-encoded (the header
part of `upstreamPayload`). -/
def forwardedHeaderBytes (hb auth : Str) : Str :=
  encodeU (rewriteRequest (decodeU hb) auth)

/-- Specification-side byte-level rewrite: the original non-auth header
bytes — request line, auth text, every original non-Proxy-Authorization
header line (empty ones included) in order, and the terminating blank
line — with no decode/re-encode step. -/
def expectedHeaderBytes (hb auth : Str) : Str :=
  (splitCRLF hb).headD [] ++ CRLF ++ auth ++
    ((((splitCRLF hb).tail).filter (fun l => !(isAuthLine l))).map (fun l => l ++ CRLF)).flatten
    ++ CRLF

/- defs-end -/
end ProxyRelay

namespace ProxyRelay

example : parse_proxy_url (s2n "http://user:pa:ss@example.com:8080") =
    some (s2n "example.com", 8080, some (s2n "user"), some (s2n "pa:ss")) := by decide

example : parse_proxy_url (s2n "https://u:p@h:1") =
    some (s2n "h", 1, some (s2n "https"), some (s2n "//u:p")) := by decide

example : parse_proxy_url (s2n "http://user@host:9999") = none := by decide

example : parse_proxy_url (s2n "http://[::1]:8080") = none := by decide

example : parse_proxy_url (s2n "proxy.local:3128") = some (s2n "proxy.local", 3128, none, none) := by
  decide

theorem containsSub_cons (sep : Str) (a : Nat) (t : Str) :
    containsSub sep (a :: t) = (sep.isPrefixOf (a :: t) || containsSub sep t) := by
  by_cases h : sep.isPrefixOf (a :: t) <;>
    cases hf : findSub sep t <;> simp [containsSub, findSub, h, hf]

theorem httpScheme_eq : httpScheme = [104, 116, 116, 112, 58, 47, 47] := by decide

theorem stripHttp_append_scheme (t : Str) : stripHttp (httpScheme ++ t) = stripHttp t := by
  rw [httpScheme_eq]
  rfl

theorem stripHttp_id (s : Str) (h : containsSub httpScheme s = false) : stripHttp s = s := by
  induction s using stripHttp.induct with
  | case1 t ih =>
    exfalso
    rw [containsSub_cons] at h
    have hp : httpScheme.isPrefixOf
        (104 :: 116 :: 116 :: 112 :: 58 :: 47 :: 47 :: t) = true := by
      rw [httpScheme_eq]
      simp [List.isPrefixOf]
    rw [hp] at h
    simp at h
  | case2 a t hne ih =>
    rw [containsSub_cons] at h
    simp only [Bool.or_eq_false_iff] at h
    rw [stripHttp]
    · rw [ih h.2]
    · exact hne
  | case3 => rfl

theorem findLastChar_eq_none (c : Nat) (y : Str) (hy : c ∉ y) : findLastChar c y = none := by
  induction y with
  | nil => rfl
  | cons a t ih =>
    simp only [List.mem_cons, not_or] at hy
    simp [findLastChar, ih hy.2, Ne.symm hy.1]

theorem findLastChar_append (c : Nat) (x y : Str) (hy : c ∉ y) :
    findLastChar c (x ++ c :: y) = some x.length := by
  induction x with
  | nil => simp [findLastChar, findLastChar_eq_none c y hy]
  | cons a t ih => simp [findLastChar, ih]

theorem findLastChar_isSome_of_mem (c : Nat) (u : Str) (h : c ∈ u) :
    (findLastChar c u).isSome = true := by
  induction u with
  | nil => cases h
  | cons a t ih =>
    rcases List.mem_cons.mp h with h1 | h2
    · subst h1
      cases hf : findLastChar c t <;> simp [findLastChar, hf]
    · have hs := ih h2
      cases hf : findLastChar c t
      · rw [hf] at hs
        simp at hs
      · simp [findLastChar, hf]

theorem rsplit_of_mem (u : Str) (h : 64 ∈ u) :
    rsplitOnceChar 64 u = some (credsPart u, hostportPart u) := by
  obtain ⟨i, hi⟩ := Option.isSome_iff_exists.mp (findLastChar_isSome_of_mem 64 u h)
  simp [rsplitOnceChar, credsPart, hostportPart, hi, h]

theorem findFirstChar_eq_none (c : Nat) (y : Str) (hy : c ∉ y) : findFirstChar c y = none := by
  induction y with
  | nil => rfl
  | cons a t ih =>
    simp only [List.mem_cons, not_or] at hy
    simp [findFirstChar, ih hy.2, Ne.symm hy.1]

theorem findFirstChar_append (c : Nat) (x y : Str) (hx : c ∉ x) :
    findFirstChar c (x ++ c :: y) = some x.length := by
  induction x with
  | nil => simp [findFirstChar]
  | cons a t ih =>
    simp only [List.mem_cons, not_or] at hx
    simp [findFirstChar, Ne.symm hx.1, ih hx.2]

theorem splitAllChar_no (c : Nat) (p : Str) (hp : c ∉ p) : splitAllChar c p = [p] := by
  induction p with
  | nil => rfl
  | cons a t ih =>
    simp only [List.mem_cons, not_or] at hp
    simp [splitAllChar, Ne.symm hp.1, ih hp.2]

theorem splitAllChar_pair (c : Nat) (h p : Str) (hh : c ∉ h) (hp : c ∉ p) :
    splitAllChar c (h ++ c :: p) = [h, p] := by
  induction h with
  | nil => simp [splitAllChar, splitAllChar_no c p hp]
  | cons a t ih =>
    simp only [List.mem_cons, not_or] at hh
    simp [splitAllChar, Ne.symm hh.1, ih hh.2]

theorem pyInt_digits (p : Str) (h1 : p ≠ []) (h2 : p.all isDigitN = true) :
    pyInt p = some ((natOfDigits p : Nat) : Int) := by
  obtain ⟨d, t, rfl⟩ := List.exists_cons_of_ne_nil h1
  have hall : ∀ x ∈ d :: t, 48 ≤ x ∧ x ≤ 57 := by
    intro x hx
    have := (List.all_eq_true.mp h2) x hx
    simpa [isDigitN] using this
  have hd := hall d (by simp)
  have hsp : ∀ x ∈ d :: t, isSpaceN x = false := by
    intro x hx
    have := hall x hx
    simp only [isSpaceN, Bool.or_eq_false_iff]
    refine ⟨⟨⟨⟨⟨?_, ?_⟩, ?_⟩, ?_⟩, ?_⟩, ?_⟩ <;> simp <;> omega
  have e1 : (d :: t).dropWhile isSpaceN = d :: t := by
    rw [List.dropWhile_cons]
    simp [hsp d (by simp)]
  have e2 : ((d :: t).reverse).dropWhile isSpaceN = (d :: t).reverse := by
    cases hr : (d :: t).reverse with
    | nil => simp
    | cons a r =>
      rw [List.dropWhile_cons]
      have ha : a ∈ d :: t := by
        have : a ∈ (d :: t).reverse := by
          rw [hr]
          simp
        rw [List.mem_reverse] at this
        exact this
      simp [hsp a ha]
  have h45 : ((d :: t).headD 0 = 45) = False := by
    simp only [List.headD_cons, eq_iff_iff, iff_false]
    omega
  have h43 : ((d :: t).headD 0 = 43) = False := by
    simp only [List.headD_cons, eq_iff_iff, iff_false]
    omega
  simp only [pyInt, e1, e2, List.reverse_reverse, h45, h43, if_false, false_or, or_self]
  rw [if_pos ⟨h1, h2⟩]
  simp

/-- C2, counterexample.  The claim quantifies over every scheme, but the
code removes only the literal `http://`; on `https://u:p@h:1` the scheme
text leaks into the credentials, so the resolver does not return
`(h, 1, u, p)` — it returns `(h, 1, https, //u:p)`. -/
theorem claim_C2_counterexample :
    parse_proxy_url (s2n "https://u:p@h:1") ≠
        some (s2n "h", 1, some (s2n "u"), some (s2n "p")) ∧
    parse_proxy_url (s2n "https://u:p@h:1") =
        some (s2n "h", 1, some (s2n "https"), some (s2n "//u:p")) :=
  ⟨by decide, by decide⟩

/-- C2, amended.  For upstream URLs of the form `http://user:pw@host:port`
(the code strips only the literal `http://`, every occurrence of it), with
a colon-free user, an `@`-free and colon-free host and a non-empty decimal
digit port, the Config Resolver returns exactly `(host, port, user, pw)`:
credentials are split from host-port at the last `@`, the user is split
from the password at the first `:` (so passwords containing `:` or `@` are
preserved in full). -/
theorem claim_C2_amended (user pw host port : Str)
    (hocc : containsSub httpScheme (user ++ 58 :: (pw ++ 64 :: (host ++ 58 :: port))) = false)
    (huser : 58 ∉ user)
    (hhostA : 64 ∉ host) (hhostC : 58 ∉ host)
    (hportA : 64 ∉ port) (hportC : 58 ∉ port)
    (hne : port ≠ []) (hdig : port.all isDigitN = true) :
    parse_proxy_url (httpScheme ++ (user ++ 58 :: (pw ++ 64 :: (host ++ 58 :: port)))) =
      some (host, ((natOfDigits port : Nat) : Int), some user, some pw) := by
  have hstrip : stripHttp (httpScheme ++ (user ++ 58 :: (pw ++ 64 :: (host ++ 58 :: port))))
      = user ++ 58 :: (pw ++ 64 :: (host ++ 58 :: port)) := by
    rw [stripHttp_append_scheme, stripHttp_id _ hocc]
  have hmem : 64 ∈ user ++ 58 :: (pw ++ 64 :: (host ++ 58 :: port)) := by simp
  have hyno : 64 ∉ host ++ 58 :: port := by simp [hhostA, hportA]
  have hassoc : user ++ 58 :: (pw ++ 64 :: (host ++ 58 :: port))
      = (user ++ 58 :: pw) ++ 64 :: (host ++ 58 :: port) := by simp
  have hrs : rsplitOnceChar 64 (user ++ 58 :: (pw ++ 64 :: (host ++ 58 :: port)))
      = some (user ++ 58 :: pw, host ++ 58 :: port) := by
    rw [hassoc]
    rw [rsplitOnceChar, findLastChar_append 64 _ _ hyno]
    simp only [Option.map_some']
    congr 1
    refine Prod.ext ?_ ?_
    · exact List.take_left _ _
    · show ((user ++ 58 :: pw) ++ 64 :: (host ++ 58 :: port)).drop ((user ++ 58 :: pw).length + 1)
          = host ++ 58 :: port
      rw [show (user ++ 58 :: pw) ++ 64 :: (host ++ 58 :: port)
            = ((user ++ 58 :: pw) ++ [64]) ++ (host ++ 58 :: port) by simp]
      have hlen64 : ((user ++ 58 :: pw) ++ [64]).length = (user ++ 58 :: pw).length + 1 := by
        simp only [List.length_append, List.length_cons, List.length_nil]
      rw [List.drop_left' hlen64]
  have hcreds : splitOnceChar 58 (user ++ 58 :: pw) = some (user, pw) := by
    rw [splitOnceChar, findFirstChar_append 58 user pw huser]
    simp only [Option.map_some']
    congr 1
    refine Prod.ext ?_ ?_
    · exact List.take_left _ _
    · show (user ++ 58 :: pw).drop (user.length + 1) = pw
      rw [show user ++ 58 :: pw = (user ++ [58]) ++ pw by simp]
      rw [List.drop_left' (by simp)]
  have hhp : splitAllChar 58 (host ++ 58 :: port) = [host, port] :=
    splitAllChar_pair _ _ _ hhostC hportC
  simp only [parse_proxy_url, hstrip]
  rw [if_pos hmem, hrs]
  simp only [hcreds, hhp]
  rw [pyInt_digits port hne hdig]
  simp

/-- C2, witness: a concrete URL with a password containing `:`. -/
theorem claim_C2_witness :
    parse_proxy_url (s2n "http://user:pa:ss@example.com:8080") =
      some (s2n "example.com", 8080, some (s2n "user"), some (s2n "pa:ss")) := by
  have h := claim_C2_amended (s2n "user") (s2n "pa:ss") (s2n "example.com") (s2n "8080")
    (by decide) (by decide) (by decide) (by decide) (by decide) (by decide) (by decide) (by decide)
  have e : s2n "http://user:pa:ss@example.com:8080"
      = httpScheme ++ (s2n "user" ++ 58 :: (s2n "pa:ss" ++ 64 :: (s2n "example.com" ++ 58 :: s2n "8080"))) := by
    decide
  rw [e, h]
  decide

/-- C9: URLs whose credential part (before the last `@`) has no colon, and
URLs whose host-port part does not split at `:` into exactly two pieces
(no colon at all, or an IPv6-style literal with several), make
`parse_proxy_url` raise an uncaught `ValueError` (modelled as `none`). -/
theorem claim_C9 (url : Str)
    (h : (64 ∈ stripHttp url ∧ findFirstChar 58 (credsPart (stripHttp url)) = none)
       ∨ (splitAllChar 58 (hostportPart (stripHttp url))).length ≠ 2) :
    parse_proxy_url url = none := by
  by_cases hm : 64 ∈ stripHttp url
  · simp only [parse_proxy_url]
    rw [if_pos hm, rsplit_of_mem _ hm]
    rcases h with ⟨_, hcc⟩ | hlen
    · simp [splitOnceChar, hcc]
    · cases hff : findFirstChar 58 (credsPart (stripHttp url)) with
      | none => simp [splitOnceChar, hff]
      | some i =>
        simp only [splitOnceChar, hff, Option.map_some']
        rcases hsp : splitAllChar 58 (hostportPart (stripHttp url)) with
          _ | ⟨a, _ | ⟨b, _ | ⟨c, r⟩⟩⟩ <;> simp_all
  · rcases h with ⟨hm2, _⟩ | hlen
    · exact absurd hm2 hm
    · simp only [parse_proxy_url]
      rw [if_neg hm]
      rw [show hostportPart (stripHttp url) = stripHttp url by simp [hostportPart, hm]] at hlen
      rcases hsp : splitAllChar 58 (stripHttp url) with
        _ | ⟨a, _ | ⟨b, _ | ⟨c, r⟩⟩⟩ <;> simp_all

/-- C9, witness: a URL with credentials but no colon in them. -/
theorem claim_C9_witness : parse_proxy_url (s2n "http://user@host:9999") = none :=
  claim_C9 _ (Or.inl ⟨by decide, by decide⟩)

theorem splitCRLF_ne_nil (s : Str) : splitCRLF s ≠ [] := by
  induction s using splitCRLF.induct with
  | case1 => simp [splitCRLF]
  | case2 a => simp [splitCRLF]
  | case3 a b t h ih =>
    rw [splitCRLF, if_pos h]
    simp
  | case4 a b t h he ih =>
    rw [splitCRLF, if_neg h, he]
    simp
  | case5 a b t h hd r he ih =>
    rw [splitCRLF, if_neg h, he]
    simp

theorem splitCRLF_head_shape (b : Nat) (t : Str) (h : Str) (r : List Str)
    (he : splitCRLF (b :: t) = h :: r) : h = [] ∨ ∃ h2, h = b :: h2 := by
  cases t with
  | nil =>
    rw [splitCRLF] at he
    have := (List.cons.injEq _ _ _ _ ▸ he)
    exact Or.inr ⟨[], by simp_all⟩
  | cons c t2 =>
    rw [splitCRLF] at he
    by_cases hbc : b = 13 ∧ c = 10
    · rw [if_pos hbc] at he
      exact Or.inl (by simp_all)
    · rw [if_neg hbc] at he
      rcases hs : splitCRLF (c :: t2) with _ | ⟨h2, r2⟩
      · rw [hs] at he
        exact Or.inr ⟨[], by simp_all⟩
      · rw [hs] at he
        exact Or.inr ⟨h2, by simp_all⟩

theorem splitCRLF_parts_no_crlf (s : Str) : ∀ l ∈ splitCRLF s, containsCRLF l = false := by
  induction s using splitCRLF.induct with
  | case1 =>
    intro l hl
    simp only [splitCRLF, List.mem_singleton] at hl
    subst hl
    rfl
  | case2 a =>
    intro l hl
    simp only [splitCRLF, List.mem_singleton] at hl
    subst hl
    rfl
  | case3 a b t h ih =>
    intro l hl
    rw [splitCRLF, if_pos h] at hl
    rcases List.mem_cons.mp hl with h1 | h2
    · subst h1
      rfl
    · exact ih l h2
  | case4 a b t h he ih => exact absurd he (splitCRLF_ne_nil _)
  | case5 a b t h hd r he ih =>
    intro l hl
    rw [splitCRLF, if_neg h, he] at hl
    rcases List.mem_cons.mp hl with h1 | hmem
    · subst h1
      have hh2 : containsCRLF hd = false := ih hd (by rw [he]; simp)
      rcases splitCRLF_head_shape b t hd r he with hsh | ⟨h3, hsh⟩
      · subst hsh
        rfl
      · subst hsh
        show containsCRLF (a :: b :: h3) = false
        rw [containsCRLF]
        have hb : (decide (a = 13) && decide (b = 10)) = false := by
          rcases Decidable.em (a = 13) with h13 | h13 <;>
            rcases Decidable.em (b = 10) with h10 | h10 <;> simp_all
        rw [hb, Bool.false_or]
        exact hh2
    · exact ih l (by rw [he]; exact List.mem_cons_of_mem _ hmem)

theorem splitCRLF_no_crlf (s : Str) (h : containsCRLF s = false) : splitCRLF s = [s] := by
  induction s using splitCRLF.induct with
  | case1 => rfl
  | case2 a => rfl
  | case3 a b t hc ih =>
    rw [containsCRLF] at h
    simp [hc.1, hc.2] at h
  | case4 a b t hc he ih =>
    rw [containsCRLF] at h
    simp only [Bool.or_eq_false_iff] at h
    rw [ih h.2] at he
    cases he
  | case5 a b t hc hd r he ih =>
    rw [containsCRLF] at h
    simp only [Bool.or_eq_false_iff] at h
    rw [splitCRLF, if_neg hc, he]
    rw [ih h.2] at he
    have h1 : hd = b :: t := by simp_all
    have h2 : r = [] := by simp_all
    rw [h1, h2]

theorem splitCRLF_append (a b : Str) (ha : containsCRLF a = false) :
    splitCRLF (a ++ 13 :: 10 :: b) = a :: splitCRLF b := by
  induction a with
  | nil => simp [splitCRLF]
  | cons x a2 ih =>
    cases a2 with
    | nil =>
      show splitCRLF (x :: 13 :: 10 :: b) = [x] :: splitCRLF b
      rw [splitCRLF]
      have hx : ¬(x = 13 ∧ (13 : Nat) = 10) := by omega
      rw [if_neg hx]
      rw [show splitCRLF (13 :: 10 :: b) = [] :: splitCRLF b from by rw [splitCRLF]; simp]
    | cons z a3 =>
      rw [containsCRLF] at ha
      simp only [Bool.or_eq_false_iff] at ha
      have hxz : ¬(x = 13 ∧ z = 10) := by
        intro hc
        rcases hc with ⟨h1, h2⟩
        simp [h1, h2] at ha
      have ha2 : containsCRLF (z :: a3) = false := ha.2
      show splitCRLF (x :: z :: (a3 ++ 13 :: 10 :: b)) = (x :: z :: a3) :: splitCRLF b
      rw [splitCRLF, if_neg hxz]
      have hih := ih ha2
      rw [List.cons_append] at hih
      rw [hih]

theorem splitCRLF_joinTerm (parts : List Str) (tl : Str)
    (hp : ∀ p ∈ parts, containsCRLF p = false) :
    splitCRLF (joinTerm parts ++ tl) = parts ++ splitCRLF tl := by
  induction parts with
  | nil => simp [joinTerm]
  | cons p ps ih =>
    have he : joinTerm (p :: ps) ++ tl = p ++ 13 :: 10 :: (joinTerm ps ++ tl) := by
      simp [joinTerm, CRLF]
    rw [he, splitCRLF_append _ _ (hp p (by simp))]
    rw [ih (fun q hq => hp q (List.mem_cons_of_mem _ hq))]
    rfl

theorem buildHeaderLines_eq_joinTerm (ls : List Str) (h : ∀ l ∈ ls, l ≠ []) :
    buildHeaderLines ls = joinTerm ls := by
  induction ls with
  | nil => rfl
  | cons l t ih =>
    rw [buildHeaderLines, joinTerm, if_neg (h l (by simp))]
    rw [ih (fun q hq => h q (List.mem_cons_of_mem _ hq))]

theorem rewrite_head_no_crlf (headersTxt : Str) :
    containsCRLF ((splitCRLF headersTxt).headD []) = false := by
  cases hL : splitCRLF headersTxt with
  | nil => exact absurd hL (splitCRLF_ne_nil _)
  | cons r rs =>
    have hm : r ∈ splitCRLF headersTxt := by
      rw [hL]
      simp
    simpa using splitCRLF_parts_no_crlf _ _ hm

theorem rewrite_others_facts (headersTxt : Str)
    (hlines : ∀ l ∈ (splitCRLF headersTxt).tail, l ≠ []) :
    (∀ l ∈ ((splitCRLF headersTxt).tail).filter (fun l => !(isAuthLine l)), l ≠ []) ∧
    (∀ l ∈ ((splitCRLF headersTxt).tail).filter (fun l => !(isAuthLine l)),
      containsCRLF l = false) := by
  constructor
  · intro l hl
    exact hlines l (List.mem_filter.mp hl).1
  · intro l hl
    exact splitCRLF_parts_no_crlf _ l (List.mem_of_mem_tail (List.mem_filter.mp hl).1)

theorem rewrite_split_core (headersTxt core : Str)
    (hlines : ∀ l ∈ (splitCRLF headersTxt).tail, l ≠ [])
    (hc : containsCRLF core = false) :
    splitCRLF (rewriteRequest headersTxt (core ++ CRLF))
      = (splitCRLF headersTxt).headD [] :: core ::
          (((splitCRLF headersTxt).tail).filter (fun l => !(isAuthLine l)) ++ [[], []]) := by
  obtain ⟨hne, hnc⟩ := rewrite_others_facts headersTxt hlines
  have he : rewriteRequest headersTxt (core ++ CRLF)
      = joinTerm ((splitCRLF headersTxt).headD [] :: core ::
          ((splitCRLF headersTxt).tail).filter (fun l => !(isAuthLine l))) ++ CRLF := by
    rw [rewriteRequest, buildHeaderLines_eq_joinTerm _ hne]
    simp [joinTerm, List.append_assoc]
  rw [he, splitCRLF_joinTerm _ _ ?hp]
  case hp =>
    intro p hp
    rcases List.mem_cons.mp hp with h1 | hp2
    · subst h1
      exact rewrite_head_no_crlf headersTxt
    · rcases List.mem_cons.mp hp2 with h2 | hp3
      · subst h2
        exact hc
      · exact hnc p hp3
  rw [show splitCRLF CRLF = [[], []] from rfl]
  simp

theorem rewrite_split_empty (headersTxt : Str)
    (hlines : ∀ l ∈ (splitCRLF headersTxt).tail, l ≠ []) :
    splitCRLF (rewriteRequest headersTxt [])
      = (splitCRLF headersTxt).headD [] ::
          (((splitCRLF headersTxt).tail).filter (fun l => !(isAuthLine l)) ++ [[], []]) := by
  obtain ⟨hne, hnc⟩ := rewrite_others_facts headersTxt hlines
  have he : rewriteRequest headersTxt []
      = joinTerm ((splitCRLF headersTxt).headD [] ::
          ((splitCRLF headersTxt).tail).filter (fun l => !(isAuthLine l))) ++ CRLF := by
    rw [rewriteRequest, buildHeaderLines_eq_joinTerm _ hne]
    simp [joinTerm, List.append_assoc]
  rw [he, splitCRLF_joinTerm _ _ ?hp]
  case hp =>
    intro p hp
    rcases List.mem_cons.mp hp with h1 | hp2
    · subst h1
      exact rewrite_head_no_crlf headersTxt
    · exact hnc p hp2
  rw [show splitCRLF CRLF = [[], []] from rfl]
  simp

theorem countP_filter_not (l : List Str) :
    (l.filter (fun x => !(isAuthLine x))).countP isAuthLine = 0 := by
  rw [List.countP_eq_zero]
  intro a ha
  have := (List.mem_filter.mp ha).2
  simp at this
  simp [this]

/-- C3: on a header block with no empty header lines (any well-formed
block: a blank line would terminate it early) and with the configured
auth text either empty or a single CRLF-terminated Proxy-Authorization
line (the shape `make_auth_header` produces), the rewriter output is the
request line verbatim, then the auth line (when non-empty) immediately
after it, then every non-Proxy-Authorization original header line in
original relative order, then the terminating blank line; the output
header lines contain exactly one Proxy-Authorization line when the auth
text is non-empty and zero when it is empty. -/
theorem claim_C3 (headersTxt auth : Str)
    (hlines : ∀ l ∈ (splitCRLF headersTxt).tail, l ≠ [])
    (hauth : auth = [] ∨
      ∃ core, auth = core ++ CRLF ∧ containsCRLF core = false ∧ isAuthLine core = true) :
    (auth = [] →
      splitCRLF (rewriteRequest headersTxt auth)
        = (splitCRLF headersTxt).headD [] ::
            (((splitCRLF headersTxt).tail).filter (fun l => !(isAuthLine l)) ++ [[], []]))
    ∧ (∀ core, auth = core ++ CRLF → containsCRLF core = false →
      splitCRLF (rewriteRequest headersTxt auth)
        = (splitCRLF headersTxt).headD [] :: core ::
            (((splitCRLF headersTxt).tail).filter (fun l => !(isAuthLine l)) ++ [[], []]))
    ∧ ((splitCRLF (rewriteRequest headersTxt auth)).tail.countP isAuthLine
        = if auth = [] then 0 else 1)
    ∧ (splitCRLF (rewriteRequest headersTxt auth)).headD []
        = (splitCRLF headersTxt).headD []
    ∧ (splitCRLF (rewriteRequest headersTxt auth)).getLast? = some [] := by
  have hAuthNil : isAuthLine [] = false := by decide
  refine ⟨?_, ?_, ?_, ?_, ?_⟩
  · intro h0
    subst h0
    exact rewrite_split_empty headersTxt hlines
  · intro core hco hcc
    subst hco
    exact rewrite_split_core headersTxt core hlines hcc
  · rcases hauth with h0 | ⟨core, hco, hcc, hca⟩
    · subst h0
      rw [rewrite_split_empty headersTxt hlines]
      simp only [List.tail_cons, if_pos rfl]
      rw [List.countP_append, countP_filter_not]
      simp [List.countP_cons, hAuthNil]
    · subst hco
      rw [rewrite_split_core headersTxt core hlines hcc]
      have hnenil : core ++ CRLF ≠ [] := by simp [CRLF]
      rw [if_neg hnenil]
      simp only [List.tail_cons, List.countP_cons, hca]
      rw [List.countP_append, countP_filter_not]
      simp [List.countP_cons, hAuthNil]
  · rcases hauth with h0 | ⟨core, hco, hcc, hca⟩
    · subst h0
      rw [rewrite_split_empty headersTxt hlines]
      rfl
    · subst hco
      rw [rewrite_split_core headersTxt core hlines hcc]
      rfl
  · rcases hauth with h0 | ⟨core, hco, hcc, hca⟩
    · subst h0
      rw [rewrite_split_empty headersTxt hlines]
      rw [show ((splitCRLF headersTxt).headD [] ::
          (((splitCRLF headersTxt).tail).filter (fun l => !(isAuthLine l)) ++ [[], []]))
        = ((splitCRLF headersTxt).headD [] ::
            ((splitCRLF headersTxt).tail).filter (fun l => !(isAuthLine l)) ++ [[]]) ++ [[]] from by
          simp]
      exact List.getLast?_concat _
    · subst hco
      rw [rewrite_split_core headersTxt core hlines hcc]
      rw [show ((splitCRLF headersTxt).headD [] :: core ::
          (((splitCRLF headersTxt).tail).filter (fun l => !(isAuthLine l)) ++ [[], []]))
        = ((splitCRLF headersTxt).headD [] :: core ::
            ((splitCRLF headersTxt).tail).filter (fun l => !(isAuthLine l)) ++ [[]]) ++ [[]] from by
          simp]
      exact List.getLast?_concat _

/-- C3, witness: a concrete block with an existing Proxy-Authorization
line (dropped) and a non-empty configured auth line (inserted once). -/
theorem claim_C3_witness :
    splitCRLF (rewriteRequest (s2n "CONNECT x:443 HTTP/1.1\r\nProxy-Authorization: old\r\nHost: x")
        (s2n "Proxy-Authorization: Basic Zm9v\r\n"))
      = s2n "CONNECT x:443 HTTP/1.1" :: s2n "Proxy-Authorization: Basic Zm9v" ::
          (s2n "Host: x" :: [[], []]) ∧
    (splitCRLF (rewriteRequest (s2n "CONNECT x:443 HTTP/1.1\r\nProxy-Authorization: old\r\nHost: x")
        (s2n "Proxy-Authorization: Basic Zm9v\r\n"))).tail.countP isAuthLine = 1 := by
  have h := claim_C3 (s2n "CONNECT x:443 HTTP/1.1\r\nProxy-Authorization: old\r\nHost: x")
    (s2n "Proxy-Authorization: Basic Zm9v\r\n")
    (by decide)
    (Or.inr ⟨s2n "Proxy-Authorization: Basic Zm9v", by decide, by decide, by decide⟩)
  refine ⟨?_, ?_⟩
  · have h2 := h.2.1 (s2n "Proxy-Authorization: Basic Zm9v") (by decide) (by decide)
    rw [h2]
    decide
  · rw [h.2.2.1]
    decide

example : decodeU [195] = [65533] := by decide
example : decodeU [195, 40] = [65533, 40] := by decide
example : decodeU [226, 130, 40] = [65533, 40] := by decide
example : decodeU [224, 128, 128] = [65533, 65533, 65533] := by decide
example : decodeU [237, 160, 128] = [65533, 65533, 65533] := by decide
example : decodeU [244, 144, 128, 128] = [65533, 65533, 65533, 65533] := by decide
example : decodeU [226, 130] = [65533] := by decide
example : decodeU [240, 159, 152] = [65533] := by decide
example : decodeU [192, 175] = [65533, 65533] := by decide
example : decodeU [65, 195, 169] = [65, 233] := by decide
example : decodeU [240, 159, 152, 128] = [128512] := by decide
example : encodeU [128512] = [240, 159, 152, 128] := by decide
example : validU [65, 195, 169] = true := by decide
example : validU [195, 40] = false := by decide

example :
    Ev.startRelayCU ∈ handleTrace
      [s2n "CONNECT example.com:443 HTTP/1.1\r\nHost: example.com\r\n\r\n"]
      [s2n "HTTP/1.1 200 Connection Established\r\n\r\n"] FailPoint.noFail [] := by decide

example :
    Ev.startRelayCU ∉ handleTrace
      [s2n "CONNECT example.com:443 HTTP/1.1\r\nHost: example.com\r\n\r\n"]
      [s2n "HTTP/1.1 407 Proxy Authentication Required\r\n\r\n"] FailPoint.noFail [] := by decide

example :
    handleTrace [] [] FailPoint.noFail []
      = [Ev.closeClient, Ev.closeClient, Ev.closeUpstreamNoop] := by decide

/-- C1, evaluation of the code at the failing input.  The upstream
answers the CONNECT with status 201 — inside 200-299, so the claim (and
the spec) require the session to transition to bidirectional relay — but
the code's substring test `" 200 " in resp_line` fails: no relay threads
start and the failure is written to the error stream.  Conversely a 503
status line that happens to contain the substring `" 200 "` does start
the relay.  The spec's design notes flag this substring match as a likely
source bug, so the strict 200-299 reading of the claim is the intent and
the code diverges from it. -/
theorem claim_C1_code_divergence :
    (Ev.startRelayCU ∉ handleTrace
        [s2n "CONNECT example.com:443 HTTP/1.1\r\nHost: example.com\r\n\r\n"]
        [s2n "HTTP/1.1 201 Created\r\n\r\n"] FailPoint.noFail [] ∧
      Ev.startRelayUC ∉ handleTrace
        [s2n "CONNECT example.com:443 HTTP/1.1\r\nHost: example.com\r\n\r\n"]
        [s2n "HTTP/1.1 201 Created\r\n\r\n"] FailPoint.noFail [] ∧
      Ev.stderrTunnelFailed ∈ handleTrace
        [s2n "CONNECT example.com:443 HTTP/1.1\r\nHost: example.com\r\n\r\n"]
        [s2n "HTTP/1.1 201 Created\r\n\r\n"] FailPoint.noFail []) ∧
    Ev.startRelayCU ∈ handleTrace
        [s2n "CONNECT example.com:443 HTTP/1.1\r\nHost: example.com\r\n\r\n"]
        [s2n "HTTP/1.1 503 Down but 200 Soon\r\n\r\n"] FailPoint.noFail [] := by
  exact ⟨⟨by decide, by decide, by decide⟩, by decide⟩

/-- C4: on every CONNECT session (whatever the upstream answers,
including a partial header block cut short by an upstream close), the
accumulated upstream bytes are written to the client socket verbatim,
exactly once, before the success/failure decision and the teardown, and
no later event writes to the client again. -/
theorem claim_C4 (cc uc : List Str) (auth : Str) (data : Str)
    (hreq : readRequest [] cc = some data)
    (hconn : isConnectReq data = true) :
    ∃ post, handleTrace cc uc FailPoint.noFail auth
        = Ev.openUpstream :: Ev.sendUpstream (upstreamPayload data auth)
            :: Ev.sendClient (readResp [] uc) :: post
      ∧ ∀ bs, Ev.sendClient bs ∉ post := by
  simp only [handleTrace, hreq]
  rw [hconn]
  simp only [if_true]
  rcases htk : tunnelOk (readResp [] uc) with _ | b
  · exact ⟨Ev.stderrException :: finallyEvs true, rfl, by simp [finallyEvs]⟩
  · cases b
    · exact ⟨Ev.stderrTunnelFailed :: finallyEvs true, rfl, by simp [finallyEvs]⟩
    · exact ⟨Ev.startRelayCU :: Ev.startRelayUC :: finallyEvs true, rfl, by simp [finallyEvs]⟩

/-- C4, witness: a concrete CONNECT session with a 200 upstream answer. -/
theorem claim_C4_witness :
    ∃ post, handleTrace [s2n "CONNECT x:443 HTTP/1.1\r\n\r\n"] [s2n "HTTP/1.1 200 OK\r\n\r\n"]
        FailPoint.noFail []
        = Ev.openUpstream
            :: Ev.sendUpstream (upstreamPayload (s2n "CONNECT x:443 HTTP/1.1\r\n\r\n") [])
            :: Ev.sendClient (readResp [] [s2n "HTTP/1.1 200 OK\r\n\r\n"]) :: post
      ∧ ∀ bs, Ev.sendClient bs ∉ post :=
  claim_C4 _ _ _ _ (by decide) (by decide)

/-- C5: a client that closes before the four-byte terminator has been
seen makes the handler close the client socket and return — the whole
trace is the early close plus the unconditional `finally` closes, with no
upstream event of any kind; moreover on every session, whatever the
inputs and injected failures, the upstream socket is opened at most once
and only after a complete request header block was read. -/
theorem claim_C5 (cc uc : List Str) (fail : FailPoint) (auth : Str) :
    (readRequest [] cc = none →
      handleTrace cc uc fail auth = [Ev.closeClient, Ev.closeClient, Ev.closeUpstreamNoop])
    ∧ countOpenUpstream (handleTrace cc uc fail auth) ≤ 1
    ∧ (Ev.openUpstream ∈ handleTrace cc uc fail auth → (readRequest [] cc).isSome = true) := by
  rcases hr : readRequest [] cc with _ | data
  · refine ⟨fun _ => ?_, ?_, ?_⟩
    · simp [handleTrace, hr, finallyEvs]
    · simp [handleTrace, hr, finallyEvs, countOpenUpstream]
    · intro hmem
      simp [handleTrace, hr, finallyEvs] at hmem
  · refine ⟨?_, ?_, ?_⟩
    · intro h0
      exact Option.noConfusion h0
    case refine_3 =>
      intro _
      simp [hr]
    simp only [handleTrace, hr]
    cases fail
    case connectFail =>
      simp [countOpenUpstream, List.countP_cons, finallyEvs]
    case sendUpstreamFail =>
      simp [countOpenUpstream, List.countP_cons, finallyEvs]
    case sendClientFail =>
      by_cases hc : isConnectReq data = true
      · rw [hc]
        simp [countOpenUpstream, List.countP_cons, finallyEvs]
      · rw [Bool.not_eq_true] at hc
        rw [hc]
        simp [countOpenUpstream, List.countP_cons, finallyEvs]
    case noFail =>
      by_cases hc : isConnectReq data = true
      · rw [hc]
        simp only [if_true, reduceCtorEq, reduceIte]
        rcases htk : tunnelOk (readResp [] uc) with _ | b
        · simp [countOpenUpstream, List.countP_cons, finallyEvs]
        · cases b <;> simp [countOpenUpstream, List.countP_cons, finallyEvs]
      · rw [Bool.not_eq_true] at hc
        rw [hc]
        simp [countOpenUpstream, List.countP_cons, finallyEvs]

/-- C5, witness: a client that closes immediately; and the general
bounds at a session that does open the upstream. -/
theorem claim_C5_witness :
    handleTrace ([] : List Str) [] FailPoint.noFail []
        = [Ev.closeClient, Ev.closeClient, Ev.closeUpstreamNoop] ∧
    countOpenUpstream (handleTrace [s2n "GET / HTTP/1.1\r\n\r\n"] [] FailPoint.noFail []) ≤ 1 :=
  ⟨(claim_C5 [] [] FailPoint.noFail []).1 (by decide),
   (claim_C5 [s2n "GET / HTTP/1.1\r\n\r\n"] [] FailPoint.noFail []).2.1⟩

/-- C7: every `handle_client` trace, on every exit path (normal
completion, injected socket errors, failed or undecodable tunnel
negotiation), ends with the `finally` teardown: the client socket is
closed, and whenever the upstream socket was opened it is closed too
(close attempts on a never-opened upstream raise a swallowed error). -/
theorem claim_C7 (cc uc : List Str) (fail : FailPoint) (auth : Str) :
    (∃ pre b, handleTrace cc uc fail auth = pre ++ finallyEvs b
        ∧ (Ev.openUpstream ∈ pre → b = true))
    ∧ Ev.closeClient ∈ handleTrace cc uc fail auth
    ∧ (Ev.openUpstream ∈ handleTrace cc uc fail auth →
        Ev.closeUpstreamReal ∈ handleTrace cc uc fail auth) := by
  have hshape : ∃ pre b, handleTrace cc uc fail auth = pre ++ finallyEvs b
      ∧ (Ev.openUpstream ∈ pre → b = true) := by
    rcases hr : readRequest [] cc with _ | data
    · exact ⟨[Ev.closeClient], false, by simp [handleTrace, hr], by simp⟩
    · simp only [handleTrace, hr]
      cases fail
      case connectFail => exact ⟨[Ev.stderrException], true, by simp, by simp⟩
      case sendUpstreamFail =>
        exact ⟨[Ev.openUpstream, Ev.stderrException], true, by simp, by simp⟩
      case sendClientFail =>
        by_cases hc : isConnectReq data = true
        · rw [hc]
          exact ⟨[Ev.openUpstream, Ev.sendUpstream (upstreamPayload data auth),
            Ev.stderrException], true, by simp, by simp⟩
        · rw [Bool.not_eq_true] at hc
          rw [hc]
          exact ⟨[Ev.openUpstream, Ev.sendUpstream (upstreamPayload data auth),
            Ev.startRelayUC], true, by simp, by simp⟩
      case noFail =>
        by_cases hc : isConnectReq data = true
        · rw [hc]
          simp only [if_true, reduceCtorEq, reduceIte]
          rcases htk : tunnelOk (readResp [] uc) with _ | b
          · exact ⟨[Ev.openUpstream, Ev.sendUpstream (upstreamPayload data auth),
              Ev.sendClient (readResp [] uc), Ev.stderrException], true, by simp, by simp⟩
          · cases b
            · exact ⟨[Ev.openUpstream, Ev.sendUpstream (upstreamPayload data auth),
                Ev.sendClient (readResp [] uc), Ev.stderrTunnelFailed], true, by simp, by simp⟩
            · exact ⟨[Ev.openUpstream, Ev.sendUpstream (upstreamPayload data auth),
                Ev.sendClient (readResp [] uc), Ev.startRelayCU, Ev.startRelayUC], true,
                by simp, by simp⟩
        · rw [Bool.not_eq_true] at hc
          rw [hc]
          exact ⟨[Ev.openUpstream, Ev.sendUpstream (upstreamPayload data auth),
            Ev.startRelayUC], true, by simp, by simp⟩
  obtain ⟨pre, b, hb, hob⟩ := hshape
  refine ⟨⟨pre, b, hb, hob⟩, ?_, ?_⟩
  · rw [hb]
    simp [finallyEvs]
  · intro hmem
    rw [hb] at hmem ⊢
    rcases List.mem_append.mp hmem with hp | hf
    · rw [hob hp]
      simp [finallyEvs]
    · simp [finallyEvs] at hf
      rcases b with _ | _ <;> simp_all [finallyEvs]

/-- C7, witness: closure events on a concrete failed-negotiation run. -/
theorem claim_C7_witness :
    Ev.closeClient ∈ handleTrace [s2n "CONNECT x:443 HTTP/1.1\r\n\r\n"] []
        FailPoint.noFail [] ∧
    Ev.closeUpstreamReal ∈ handleTrace [s2n "CONNECT x:443 HTTP/1.1\r\n\r\n"] []
        FailPoint.noFail [] :=
  ⟨(claim_C7 [s2n "CONNECT x:443 HTTP/1.1\r\n\r\n"] [] FailPoint.noFail []).2.1,
   (claim_C7 [s2n "CONNECT x:443 HTTP/1.1\r\n\r\n"] [] FailPoint.noFail []).2.2 (by decide)⟩

theorem relayWrites_take (chunks : List Str) (errAt : Option Nat) :
    relayWrites chunks errAt = chunks.take (relayStop chunks errAt) := by
  induction chunks generalizing errAt with
  | nil => simp [relayWrites]
  | cons c rest ih =>
    by_cases h0 : errAt = some 0
    · subst h0
      simp [relayWrites, relayStop]
    · rw [relayWrites, if_neg h0]
      by_cases hc : c = []
      · subst hc
        rw [if_pos rfl]
        have hz : relayStop ([] :: rest) errAt = 0 := by
          simp [relayStop, List.findIdx_cons]
        rw [hz]
        rfl
      · have hie : c.isEmpty = false := by
          cases c
          · exact absurd rfl hc
          · rfl
        rw [if_neg hc, ih]
        have hstop : relayStop (c :: rest) errAt = relayStop rest (errAt.map (· - 1)) + 1 := by
          cases errAt with
          | none =>
            simp only [relayStop, List.findIdx_cons, hie, cond_false, Option.map_none',
              List.length_cons]
            omega
          | some k =>
            cases k with
            | zero => exact absurd rfl h0
            | succ j =>
              simp only [relayStop, List.findIdx_cons, hie, cond_false, Option.map_some']
              have : j + 1 - 1 = j := rfl
              rw [this]
              omega
        rw [hstop, List.take_succ_cons]

theorem relayWrites_ne_nil (chunks : List Str) (errAt : Option Nat) :
    ∀ bs ∈ relayWrites chunks errAt, bs ≠ [] := by
  induction chunks generalizing errAt with
  | nil =>
    intro bs h
    simp [relayWrites] at h
  | cons c rest ih =>
    intro bs h
    rw [relayWrites] at h
    by_cases h0 : errAt = some 0
    · rw [if_pos h0] at h
      simp at h
    · rw [if_neg h0] at h
      by_cases hc : c = []
      · rw [if_pos hc] at h
        simp at h
      · rw [if_neg hc] at h
        rcases List.mem_cons.mp h with h1 | h2
        · subst h1
          exact hc
        · exact ih _ bs h2

/-- C6: each relay pump forwards exactly the source chunks up to its stop
point — the first empty read (peer closed), the injected error step, or
exhaustion — fully and in order; every forwarded chunk is non-empty and
within the 64 KiB read bound; and the trace always ends with the
shutdown-for-writing half-close of the destination (never a close). -/
theorem claim_C6 (chunks : List Str) (errAt : Option Nat)
    (hsz : ∀ c ∈ chunks, c.length ≤ 65536) :
    relayWrites chunks errAt = chunks.take (relayStop chunks errAt)
    ∧ (relayTrace chunks errAt).getLast? = some REv.shutdownWR
    ∧ ∀ bs, REv.write bs ∈ relayTrace chunks errAt → bs ≠ [] ∧ bs.length ≤ 65536 := by
  refine ⟨relayWrites_take chunks errAt, List.getLast?_concat _, ?_⟩
  intro bs hb
  rcases List.mem_append.mp hb with hm | hm
  · obtain ⟨a, ha, hae⟩ := List.mem_map.mp hm
    cases hae
    refine ⟨relayWrites_ne_nil chunks errAt _ ha, hsz _ ?_⟩
    rw [relayWrites_take] at ha
    exact List.take_subset _ _ ha
  · simp at hm

/-- C6, witness: a two-chunk source with no error. -/
theorem claim_C6_witness :
    relayWrites [s2n "ab", s2n "cd"] none
        = [s2n "ab", s2n "cd"].take (relayStop [s2n "ab", s2n "cd"] none) ∧
    (relayTrace [s2n "ab", s2n "cd"] none).getLast? = some REv.shutdownWR :=
  ⟨(claim_C6 [s2n "ab", s2n "cd"] none (by decide)).1,
   (claim_C6 [s2n "ab", s2n "cd"] none (by decide)).2.1⟩

/-- C8: when no upstream proxy URL is configured (unset or empty), or
when the configured URL fails to parse — in particular when the host-port
part has no parseable integer port — the process writes a diagnostic to
the error stream and exits with a non-zero status without ever binding or
listening on the local port. -/
theorem claim_C8 (cfg : Option Str)
    (h : cfg = none ∨ cfg = some [] ∨ ∃ u, cfg = some u ∧ parse_proxy_url u = none) :
    (MainEv.stderrConfigMsg ∈ mainTrace cfg ∨ MainEv.stderrUncaught ∈ mainTrace cfg)
    ∧ MainEv.exitNonzero ∈ mainTrace cfg
    ∧ MainEv.bindListen ∉ mainTrace cfg := by
  rcases h with h | h | ⟨u, hu, hp⟩
  · subst h
    exact ⟨Or.inl (by simp [mainTrace]), by simp [mainTrace], by simp [mainTrace]⟩
  · subst h
    exact ⟨Or.inl (by simp [mainTrace]), by simp [mainTrace], by simp [mainTrace]⟩
  · subst hu
    by_cases hu0 : u = []
    · subst hu0
      exact ⟨Or.inl (by simp [mainTrace]), by simp [mainTrace], by simp [mainTrace]⟩
    · have ht : mainTrace (some u) = [MainEv.stderrUncaught, MainEv.exitNonzero] := by
        simp [mainTrace, hu0, hp]
      rw [ht]
      exact ⟨Or.inr (by simp), by simp, by simp⟩

/-- C8, witness: a URL whose port is not a parseable integer. -/
theorem claim_C8_witness :
    MainEv.exitNonzero ∈ mainTrace (some (s2n "http://h:port")) ∧
    MainEv.bindListen ∉ mainTrace (some (s2n "http://h:port")) :=
  ⟨(claim_C8 (some (s2n "http://h:port"))
      (Or.inr (Or.inr ⟨s2n "http://h:port", rfl, by decide⟩))).2.1,
   (claim_C8 (some (s2n "http://h:port"))
      (Or.inr (Or.inr ⟨s2n "http://h:port", rfl, by decide⟩))).2.2⟩

theorem enc1 (b : Nat) (h : b ≤ 127) : encodeChar b = [b] := by
  simp [encodeChar, h]

theorem enc2 (b1 b2 : Nat) (h1 : ¬b1 ≤ 193) (h2 : b1 ≤ 223) (hc : contOk b2 = true) :
    encodeChar ((b1 - 192) * 64 + (b2 - 128)) = [b1, b2] := by
  simp only [contOk, decide_eq_true_eq] at hc
  rw [encodeChar, if_neg (by omega), if_pos (by omega)]
  simp only [List.cons.injEq, and_true]
  constructor <;> omega

theorem enc3 (b1 b2 b3 : Nat) (h1 : ¬b1 ≤ 223) (h2 : b1 ≤ 239)
    (hc : cont2Ok b1 b2 = true) (hc3 : contOk b3 = true) :
    encodeChar ((b1 - 224) * 4096 + (b2 - 128) * 64 + (b3 - 128)) = [b1, b2, b3] := by
  simp only [cont2Ok, cont2lo, cont2hi, decide_eq_true_eq] at hc
  simp only [contOk, decide_eq_true_eq] at hc3
  split_ifs at hc <;>
    (rw [encodeChar, if_neg (by omega), if_neg (by omega), if_pos (by omega)];
     simp only [List.cons.injEq, and_true];
     refine ⟨by omega, by omega, by omega⟩)

theorem enc4 (b1 b2 b3 b4 : Nat) (h1 : ¬b1 ≤ 239) (h2 : b1 ≤ 244)
    (hc : cont2Ok b1 b2 = true) (hc3 : contOk b3 = true) (hc4 : contOk b4 = true) :
    encodeChar ((b1 - 240) * 262144 + (b2 - 128) * 4096 + (b3 - 128) * 64 + (b4 - 128))
      = [b1, b2, b3, b4] := by
  simp only [cont2Ok, cont2lo, cont2hi, decide_eq_true_eq] at hc
  simp only [contOk, decide_eq_true_eq] at hc3 hc4
  split_ifs at hc <;>
    (rw [encodeChar, if_neg (by omega), if_neg (by omega), if_neg (by omega)];
     simp only [List.cons.injEq, and_true];
     refine ⟨by omega, by omega, by omega, by omega⟩)

theorem encodeU_cons (c : Nat) (l : List Nat) :
    encodeU (c :: l) = encodeChar c ++ encodeU l := by
  simp [encodeU]

theorem utf8_roundtrip (s : List Nat) : validU s = true → encodeU (decodeU s) = s := by
  induction s using decodeU.induct with
  | case1 => intro _; rfl
  | case2 b t h ih =>
    intro hv
    rw [validU.eq_def] at hv
    simp [h] at hv
    rw [decodeU.eq_def]
    simp [h, encodeU_cons, enc1 b h, ih hv]
  | case3 b t h1 h2 ih =>
    intro hv
    rw [validU.eq_def] at hv
    simp [h1, h2] at hv
  | case4 b h1 h2 h3 =>
    intro hv
    rw [validU.eq_def] at hv
    simp [h1, h2, h3] at hv
  | case5 b h1 h2 h3 b2 t2 hc ih =>
    intro hv
    rw [validU.eq_def] at hv
    simp [h1, h2, h3, hc] at hv
    rw [decodeU.eq_def]
    simp [h1, h2, h3, hc, encodeU_cons, enc2 b b2 h2 h3 hc, ih hv]
  | case6 b h1 h2 h3 b2 t2 hc ih =>
    intro hv
    rw [validU.eq_def] at hv
    simp [h1, h2, h3, hc] at hv
  | case7 b h1 h2 h3 h4 =>
    intro hv
    rw [validU.eq_def] at hv
    simp [h1, h2, h3, h4] at hv
  | case8 b h1 h2 h3 h4 b2 hc =>
    intro hv
    rw [validU.eq_def] at hv
    simp [h1, h2, h3, h4, hc] at hv
  | case9 b h1 h2 h3 h4 b2 hc b3 t3 hc3 ih =>
    intro hv
    rw [validU.eq_def] at hv
    simp [h1, h2, h3, h4, hc, hc3] at hv
    rw [decodeU.eq_def]
    simp [h1, h2, h3, h4, hc, hc3, encodeU_cons, enc3 b b2 b3 h3 h4 hc hc3, ih hv]
  | case10 b h1 h2 h3 h4 b2 hc b3 t3 hc3 ih =>
    intro hv
    rw [validU.eq_def] at hv
    simp [h1, h2, h3, h4, hc, hc3] at hv
  | case11 b h1 h2 h3 h4 b2 t2 hc ih =>
    intro hv
    rw [validU.eq_def] at hv
    simp [h1, h2, h3, h4, hc] at hv
  | case12 b h1 h2 h3 h4 h5 =>
    intro hv
    rw [validU.eq_def] at hv
    simp [h1, h2, h3, h4, h5] at hv
  | case13 b h1 h2 h3 h4 h5 b2 hc =>
    intro hv
    rw [validU.eq_def] at hv
    simp [h1, h2, h3, h4, h5, hc] at hv
  | case14 b h1 h2 h3 h4 h5 b2 hc b3 hc3 =>
    intro hv
    rw [validU.eq_def] at hv
    simp [h1, h2, h3, h4, h5, hc, hc3] at hv
  | case15 b h1 h2 h3 h4 h5 b2 hc b3 hc3 b4 t4 hc4 ih =>
    intro hv
    rw [validU.eq_def] at hv
    simp [h1, h2, h3, h4, h5, hc, hc3, hc4] at hv
    rw [decodeU.eq_def]
    simp [h1, h2, h3, h4, h5, hc, hc3, hc4, encodeU_cons, enc4 b b2 b3 b4 h4 h5 hc hc3 hc4, ih hv]
  | case16 b h1 h2 h3 h4 h5 b2 hc b3 hc3 b4 t4 hc4 ih =>
    intro hv
    rw [validU.eq_def] at hv
    simp [h1, h2, h3, h4, h5, hc, hc3, hc4] at hv
  | case17 b h1 h2 h3 h4 h5 b2 hc b3 t3 hc3 ih =>
    intro hv
    rw [validU.eq_def] at hv
    simp [h1, h2, h3, h4, h5, hc, hc3] at hv
  | case18 b h1 h2 h3 h4 h5 b2 t2 hc ih =>
    intro hv
    rw [validU.eq_def] at hv
    simp [h1, h2, h3, h4, h5, hc] at hv
  | case19 b t h1 h2 h3 h4 h5 ih =>
    intro hv
    rw [validU.eq_def] at hv
    simp [h1, h2, h3, h4, h5] at hv

theorem scalarFFFD : isScalar FFFD = true := by decide

theorem scalar1 (b : Nat) (h : b ≤ 127) : isScalar b = true := by
  simp only [isScalar, decide_eq_true_eq]
  omega

theorem scalar2 (b1 b2 : Nat) (h1 : ¬b1 ≤ 193) (h2 : b1 ≤ 223) (hc : contOk b2 = true) :
    isScalar ((b1 - 192) * 64 + (b2 - 128)) = true := by
  simp only [contOk, decide_eq_true_eq] at hc
  simp only [isScalar, decide_eq_true_eq]
  omega

theorem scalar3 (b1 b2 b3 : Nat) (h1 : ¬b1 ≤ 223) (h2 : b1 ≤ 239)
    (hc : cont2Ok b1 b2 = true) (hc3 : contOk b3 = true) :
    isScalar ((b1 - 224) * 4096 + (b2 - 128) * 64 + (b3 - 128)) = true := by
  simp only [cont2Ok, cont2lo, cont2hi, decide_eq_true_eq] at hc
  simp only [contOk, decide_eq_true_eq] at hc3
  simp only [isScalar, decide_eq_true_eq]
  split_ifs at hc <;> omega

theorem scalar4 (b1 b2 b3 b4 : Nat) (h1 : ¬b1 ≤ 239) (h2 : b1 ≤ 244)
    (hc : cont2Ok b1 b2 = true) (hc3 : contOk b3 = true) (hc4 : contOk b4 = true) :
    isScalar ((b1 - 240) * 262144 + (b2 - 128) * 4096 + (b3 - 128) * 64 + (b4 - 128)) = true := by
  simp only [cont2Ok, cont2lo, cont2hi, decide_eq_true_eq] at hc
  simp only [contOk, decide_eq_true_eq] at hc3 hc4
  simp only [isScalar, decide_eq_true_eq]
  split_ifs at hc <;> omega

theorem decodeU_scalars (s : List Nat) : ∀ c ∈ decodeU s, isScalar c = true := by
  induction s using decodeU.induct with
  | case1 => intro c hcm; simp [decodeU] at hcm
  | case2 b t h ih =>
    intro c hcm
    rw [decodeU.eq_def] at hcm
    simp [h] at hcm
    rcases hcm with rfl | hcm
    · exact scalar1 _ h
    · exact ih c hcm
  | case3 b t h1 h2 ih =>
    intro c hcm
    rw [decodeU.eq_def] at hcm
    simp [h1, h2] at hcm
    rcases hcm with rfl | hcm
    · exact scalarFFFD
    · exact ih c hcm
  | case4 b h1 h2 h3 =>
    intro c hcm
    rw [decodeU.eq_def] at hcm
    simp [h1, h2, h3] at hcm
    subst hcm
    exact scalarFFFD
  | case5 b h1 h2 h3 b2 t2 hc ih =>
    intro c hcm
    rw [decodeU.eq_def] at hcm
    simp [h1, h2, h3, hc] at hcm
    rcases hcm with rfl | hcm
    · exact scalar2 _ _ h2 h3 hc
    · exact ih c hcm
  | case6 b h1 h2 h3 b2 t2 hc ih =>
    intro c hcm
    rw [decodeU.eq_def] at hcm
    simp [h1, h2, h3, hc] at hcm
    rcases hcm with rfl | hcm
    · exact scalarFFFD
    · exact ih c hcm
  | case7 b h1 h2 h3 h4 =>
    intro c hcm
    rw [decodeU.eq_def] at hcm
    simp [h1, h2, h3, h4] at hcm
    subst hcm
    exact scalarFFFD
  | case8 b h1 h2 h3 h4 b2 hc =>
    intro c hcm
    rw [decodeU.eq_def] at hcm
    simp [h1, h2, h3, h4, hc] at hcm
    subst hcm
    exact scalarFFFD
  | case9 b h1 h2 h3 h4 b2 hc b3 t3 hc3 ih =>
    intro c hcm
    rw [decodeU.eq_def] at hcm
    simp [h1, h2, h3, h4, hc, hc3] at hcm
    rcases hcm with rfl | hcm
    · exact scalar3 _ _ _ h3 h4 hc hc3
    · exact ih c hcm
  | case10 b h1 h2 h3 h4 b2 hc b3 t3 hc3 ih =>
    intro c hcm
    rw [decodeU.eq_def] at hcm
    simp [h1, h2, h3, h4, hc, hc3] at hcm
    rcases hcm with rfl | hcm
    · exact scalarFFFD
    · exact ih c hcm
  | case11 b h1 h2 h3 h4 b2 t2 hc ih =>
    intro c hcm
    rw [decodeU.eq_def] at hcm
    simp [h1, h2, h3, h4, hc] at hcm
    rcases hcm with rfl | hcm
    · exact scalarFFFD
    · exact ih c hcm
  | case12 b h1 h2 h3 h4 h5 =>
    intro c hcm
    rw [decodeU.eq_def] at hcm
    simp [h1, h2, h3, h4, h5] at hcm
    subst hcm
    exact scalarFFFD
  | case13 b h1 h2 h3 h4 h5 b2 hc =>
    intro c hcm
    rw [decodeU.eq_def] at hcm
    simp [h1, h2, h3, h4, h5, hc] at hcm
    subst hcm
    exact scalarFFFD
  | case14 b h1 h2 h3 h4 h5 b2 hc b3 hc3 =>
    intro c hcm
    rw [decodeU.eq_def] at hcm
    simp [h1, h2, h3, h4, h5, hc, hc3] at hcm
    subst hcm
    exact scalarFFFD
  | case15 b h1 h2 h3 h4 h5 b2 hc b3 hc3 b4 t4 hc4 ih =>
    intro c hcm
    rw [decodeU.eq_def] at hcm
    simp [h1, h2, h3, h4, h5, hc, hc3, hc4] at hcm
    rcases hcm with rfl | hcm
    · exact scalar4 _ _ _ _ h4 h5 hc hc3 hc4
    · exact ih c hcm
  | case16 b h1 h2 h3 h4 h5 b2 hc b3 hc3 b4 t4 hc4 ih =>
    intro c hcm
    rw [decodeU.eq_def] at hcm
    simp [h1, h2, h3, h4, h5, hc, hc3, hc4] at hcm
    rcases hcm with rfl | hcm
    · exact scalarFFFD
    · exact ih c hcm
  | case17 b h1 h2 h3 h4 h5 b2 hc b3 t3 hc3 ih =>
    intro c hcm
    rw [decodeU.eq_def] at hcm
    simp [h1, h2, h3, h4, h5, hc, hc3] at hcm
    rcases hcm with rfl | hcm
    · exact scalarFFFD
    · exact ih c hcm
  | case18 b h1 h2 h3 h4 h5 b2 t2 hc ih =>
    intro c hcm
    rw [decodeU.eq_def] at hcm
    simp [h1, h2, h3, h4, h5, hc] at hcm
    rcases hcm with rfl | hcm
    · exact scalarFFFD
    · exact ih c hcm
  | case19 b t h1 h2 h3 h4 h5 ih =>
    intro c hcm
    rw [decodeU.eq_def] at hcm
    simp [h1, h2, h3, h4, h5] at hcm
    rcases hcm with rfl | hcm
    · exact scalarFFFD
    · exact ih c hcm

theorem decodeU_replacement (s : List Nat) : validU s = false → FFFD ∈ decodeU s := by
  induction s using decodeU.induct with
  | case1 => intro hv; simp [validU] at hv
  | case2 b t h ih =>
    intro hv
    rw [validU.eq_def] at hv
    simp [h] at hv
    rw [decodeU.eq_def]
    simp [h]
    exact Or.inr (ih hv)
  | case3 b t h1 h2 ih =>
    intro hv
    rw [decodeU.eq_def]
    simp [h1, h2]
  | case4 b h1 h2 h3 =>
    intro hv
    rw [decodeU.eq_def]
    simp [h1, h2, h3]
  | case5 b h1 h2 h3 b2 t2 hc ih =>
    intro hv
    rw [validU.eq_def] at hv
    simp [h1, h2, h3, hc] at hv
    rw [decodeU.eq_def]
    simp [h1, h2, h3, hc]
    exact Or.inr (ih hv)
  | case6 b h1 h2 h3 b2 t2 hc ih =>
    intro hv
    rw [decodeU.eq_def]
    simp [h1, h2, h3, hc]
  | case7 b h1 h2 h3 h4 =>
    intro hv
    rw [decodeU.eq_def]
    simp [h1, h2, h3, h4]
  | case8 b h1 h2 h3 h4 b2 hc =>
    intro hv
    rw [decodeU.eq_def]
    simp [h1, h2, h3, h4, hc]
  | case9 b h1 h2 h3 h4 b2 hc b3 t3 hc3 ih =>
    intro hv
    rw [validU.eq_def] at hv
    simp [h1, h2, h3, h4, hc, hc3] at hv
    rw [decodeU.eq_def]
    simp [h1, h2, h3, h4, hc, hc3]
    exact Or.inr (ih hv)
  | case10 b h1 h2 h3 h4 b2 hc b3 t3 hc3 ih =>
    intro hv
    rw [decodeU.eq_def]
    simp [h1, h2, h3, h4, hc, hc3]
  | case11 b h1 h2 h3 h4 b2 t2 hc ih =>
    intro hv
    rw [decodeU.eq_def]
    simp [h1, h2, h3, h4, hc]
  | case12 b h1 h2 h3 h4 h5 =>
    intro hv
    rw [decodeU.eq_def]
    simp [h1, h2, h3, h4, h5]
  | case13 b h1 h2 h3 h4 h5 b2 hc =>
    intro hv
    rw [decodeU.eq_def]
    simp [h1, h2, h3, h4, h5, hc]
  | case14 b h1 h2 h3 h4 h5 b2 hc b3 hc3 =>
    intro hv
    rw [decodeU.eq_def]
    simp [h1, h2, h3, h4, h5, hc, hc3]
  | case15 b h1 h2 h3 h4 h5 b2 hc b3 hc3 b4 t4 hc4 ih =>
    intro hv
    rw [validU.eq_def] at hv
    simp [h1, h2, h3, h4, h5, hc, hc3, hc4] at hv
    rw [decodeU.eq_def]
    simp [h1, h2, h3, h4, h5, hc, hc3, hc4]
    exact Or.inr (ih hv)
  | case16 b h1 h2 h3 h4 h5 b2 hc b3 hc3 b4 t4 hc4 ih =>
    intro hv
    rw [decodeU.eq_def]
    simp [h1, h2, h3, h4, h5, hc, hc3, hc4]
  | case17 b h1 h2 h3 h4 h5 b2 hc b3 t3 hc3 ih =>
    intro hv
    rw [decodeU.eq_def]
    simp [h1, h2, h3, h4, h5, hc, hc3]
  | case18 b h1 h2 h3 h4 h5 b2 t2 hc ih =>
    intro hv
    rw [decodeU.eq_def]
    simp [h1, h2, h3, h4, h5, hc]
  | case19 b t h1 h2 h3 h4 h5 ih =>
    intro hv
    rw [decodeU.eq_def]
    simp [h1, h2, h3, h4, h5]

theorem validU_encodeChar (c : Nat) (r : List Nat) (hs : isScalar c = true) :
    validU (encodeChar c ++ r) = validU r := by
  simp only [isScalar, decide_eq_true_eq] at hs
  by_cases h1 : c ≤ 127
  · rw [enc1 c h1]
    rw [show ([c] ++ r) = c :: r from rfl, validU.eq_def]
    simp [h1]
  · by_cases h2 : c ≤ 2047
    · rw [show encodeChar c = [192 + c / 64, 128 + c % 64] from by
        rw [encodeChar, if_neg h1, if_pos h2]]
      show validU ((192 + c / 64) :: (128 + c % 64) :: r) = validU r
      rw [validU.eq_def]
      have e1 : ¬(192 + c / 64 ≤ 127) := by omega
      have e2 : ¬(192 + c / 64 ≤ 193) := by omega
      have e3 : 192 + c / 64 ≤ 223 := by omega
      have e4 : contOk (128 + c % 64) = true := by
        simp only [contOk, decide_eq_true_eq]
        omega
      simp [e1, e2, e3, e4]
    · by_cases h3 : c ≤ 65535
      · rw [show encodeChar c = [224 + c / 4096, 128 + c / 64 % 64, 128 + c % 64] from by
          rw [encodeChar, if_neg h1, if_neg h2, if_pos h3]]
        show validU ((224 + c / 4096) :: (128 + c / 64 % 64) :: (128 + c % 64) :: r) = validU r
        rw [validU.eq_def]
        have e1 : ¬(224 + c / 4096 ≤ 127) := by omega
        have e2 : ¬(224 + c / 4096 ≤ 193) := by omega
        have e3 : ¬(224 + c / 4096 ≤ 223) := by omega
        have e4 : 224 + c / 4096 ≤ 239 := by omega
        have e5 : cont2Ok (224 + c / 4096) (128 + c / 64 % 64) = true := by
          simp only [cont2Ok, cont2lo, cont2hi, decide_eq_true_eq]
          constructor
          · split_ifs with hA hB <;> omega
          · split_ifs with hA hB <;> omega
        have e6 : contOk (128 + c % 64) = true := by
          simp only [contOk, decide_eq_true_eq]
          omega
        simp [e1, e2, e3, e4, e5, e6]
      · rw [show encodeChar c
            = [240 + c / 262144, 128 + c / 4096 % 64, 128 + c / 64 % 64, 128 + c % 64] from by
          rw [encodeChar, if_neg h1, if_neg h2, if_neg h3]]
        show validU ((240 + c / 262144) :: (128 + c / 4096 % 64) :: (128 + c / 64 % 64)
          :: (128 + c % 64) :: r) = validU r
        rw [validU.eq_def]
        have e1 : ¬(240 + c / 262144 ≤ 127) := by omega
        have e2 : ¬(240 + c / 262144 ≤ 193) := by omega
        have e3 : ¬(240 + c / 262144 ≤ 223) := by omega
        have e4 : ¬(240 + c / 262144 ≤ 239) := by omega
        have e5 : 240 + c / 262144 ≤ 244 := by omega
        have e6 : cont2Ok (240 + c / 262144) (128 + c / 4096 % 64) = true := by
          simp only [cont2Ok, cont2lo, cont2hi, decide_eq_true_eq]
          constructor
          · split_ifs with hA hB <;> omega
          · split_ifs with hA hB <;> omega
        have e7 : contOk (128 + c / 64 % 64) = true := by
          simp only [contOk, decide_eq_true_eq]
          omega
        have e8 : contOk (128 + c % 64) = true := by
          simp only [contOk, decide_eq_true_eq]
          omega
        simp [e1, e2, e3, e4, e5, e6, e7, e8]

theorem validU_encodeU (s : List Nat) (hs : ∀ c ∈ s, isScalar c = true) :
    validU (encodeU s) = true := by
  induction s with
  | nil => rfl
  | cons c t ih =>
    rw [encodeU_cons, validU_encodeChar c _ (hs c (by simp))]
    exact ih (fun d hd => hs d (List.mem_cons_of_mem _ hd))

theorem encodeU_append (x y : Str) : encodeU (x ++ y) = encodeU x ++ encodeU y := by
  simp [encodeU]

theorem encodeU_ascii_cons (c : Nat) (t : Str) (h : c ≤ 127) :
    encodeU (c :: t) = c :: encodeU t := by
  rw [encodeU_cons, enc1 c h]
  rfl

theorem encodeU_ascii_id (l : Str) (h : ∀ c ∈ l, c ≤ 127) : encodeU l = l := by
  induction l with
  | nil => rfl
  | cons c t ih =>
    rw [encodeU_ascii_cons c t (h c (by simp)), ih (fun d hd => h d (List.mem_cons_of_mem _ hd))]

theorem encodeChar_ne_nil (c : Nat) : encodeChar c ≠ [] := by
  rw [encodeChar]
  split_ifs <;> simp

theorem encodeU_eq_nil_iff (l : Str) : encodeU l = [] ↔ l = [] := by
  cases l with
  | nil => simp [encodeU]
  | cons c t =>
    rw [encodeU_cons]
    simp [encodeChar_ne_nil]

theorem encodeChar_high (c : Nat) (h : 128 ≤ c) : ∀ b ∈ encodeChar c, 128 ≤ b := by
  intro b hb
  rw [encodeChar, if_neg (by omega)] at hb
  split_ifs at hb with g2 g3
  · simp at hb
    rcases hb with rfl | rfl <;> omega
  · simp at hb
    rcases hb with rfl | rfl | rfl <;> omega
  · simp at hb
    rcases hb with rfl | rfl | rfl | rfl <;> omega

theorem encodeU_cons_high (c : Nat) (t : Str) (h : 128 ≤ c) :
    ∃ b bs, encodeU (c :: t) = b :: bs ∧ 128 ≤ b := by
  rw [encodeU_cons]
  rcases he : encodeChar c with _ | ⟨b, bs⟩
  · exact absurd he (encodeChar_ne_nil c)
  · refine ⟨b, bs ++ encodeU t, rfl, ?_⟩
    exact encodeChar_high c h b (by rw [he]; simp)

theorem containsCRLF_cons_ne (a : Nat) (t : Str) (h : a ≠ 13) :
    containsCRLF (a :: t) = containsCRLF t := by
  cases t with
  | nil => rfl
  | cons b t2 =>
    rw [containsCRLF]
    simp [h]

theorem containsCRLF_append_high (pre r : Str) (hp : ∀ b ∈ pre, b ≠ 13) :
    containsCRLF (pre ++ r) = containsCRLF r := by
  induction pre with
  | nil => rfl
  | cons b p2 ih =>
    rw [List.cons_append, containsCRLF_cons_ne b _ (hp b (by simp))]
    exact ih (fun x hx => hp x (List.mem_cons_of_mem _ hx))

theorem containsCRLF_encode (m : Str) : containsCRLF (encodeU m) = containsCRLF m := by
  induction m with
  | nil => rfl
  | cons c t ih =>
    by_cases hc : c ≤ 127
    · rw [encodeU_ascii_cons c t hc]
      by_cases h13 : c = 13
      · subst h13
        cases t with
        | nil => rfl
        | cons d t2 =>
          by_cases hd : d ≤ 127
          · rw [encodeU_ascii_cons d t2 hd]
            rw [containsCRLF, containsCRLF]
            by_cases h10 : d = 10
            · simp [h10]
            · simp only [h10, decide_eq_true_eq, Bool.and_eq_true, decide_eq_false_iff_not,
                not_false_eq_true, Bool.false_or, Bool.and_false, decide_False, decide_True,
                Bool.true_and]
              rw [show containsCRLF (d :: encodeU t2) = containsCRLF (encodeU (d :: t2)) from by
                rw [encodeU_ascii_cons d t2 hd]]
              exact ih
          · obtain ⟨b, bs, he, hb⟩ := encodeU_cons_high d t2 (by omega)
            rw [he, containsCRLF]
            have hb10 : ¬(b = 10) := by omega
            simp only [hb10, decide_False, Bool.and_false, Bool.false_or, decide_True,
              Bool.true_and]
            rw [← he, ih]
            rw [containsCRLF]
            have hd10 : ¬(d = 10) := by omega
            simp [hd10]
      · rw [containsCRLF_cons_ne c _ h13, ih, containsCRLF_cons_ne c t h13]
    · rw [encodeU_cons]
      rw [containsCRLF_append_high (encodeChar c) _
        (fun b hb => by have := encodeChar_high c (by omega) b hb; omega)]
      rw [ih, containsCRLF_cons_ne c t (by omega)]

theorem ascii_isPrefixOf_encode (pat : Str) (hp : ∀ p ∈ pat, p ≤ 127) :
    ∀ m : Str, pat.isPrefixOf (encodeU m) = pat.isPrefixOf m := by
  induction pat with
  | nil => intro m; simp
  | cons p ps ih =>
    intro m
    cases m with
    | nil => rfl
    | cons c t =>
      by_cases hc : c ≤ 127
      · rw [encodeU_ascii_cons c t hc]
        rw [List.isPrefixOf_cons₂, List.isPrefixOf_cons₂]
        rw [ih (fun q hq => hp q (List.mem_cons_of_mem _ hq)) t]
      · obtain ⟨b, bs, he, hb⟩ := encodeU_cons_high c t (by omega)
        rw [he, List.isPrefixOf_cons₂, List.isPrefixOf_cons₂]
        have hple := hp p (by simp)
        have hpb : (p == b) = false := by
          simp only [beq_eq_false_iff_ne, ne_eq]
          omega
        have hpc : (p == c) = false := by
          simp only [beq_eq_false_iff_ne, ne_eq]
          omega
        rw [hpb, hpc]
        simp

theorem lowerAscii_append (x y : Str) :
    lowerAscii (x ++ y) = lowerAscii x ++ lowerAscii y := by
  simp [lowerAscii]

theorem lowerAscii_high_id (x : Str) (h : ∀ b ∈ x, 128 ≤ b) : lowerAscii x = x := by
  induction x with
  | nil => rfl
  | cons b t ih =>
    have hb := h b (by simp)
    show (if 65 ≤ b ∧ b ≤ 90 then b + 32 else b) :: lowerAscii t = b :: t
    rw [if_neg (by omega), ih (fun y hy => h y (List.mem_cons_of_mem _ hy))]

theorem lowerAscii_encode (l : Str) : lowerAscii (encodeU l) = encodeU (lowerAscii l) := by
  induction l with
  | nil => rfl
  | cons c t ih =>
    by_cases hc : c ≤ 127
    · rw [encodeU_ascii_cons c t hc]
      show (if 65 ≤ c ∧ c ≤ 90 then c + 32 else c) :: lowerAscii (encodeU t)
          = encodeU ((if 65 ≤ c ∧ c ≤ 90 then c + 32 else c) :: lowerAscii t)
      rw [encodeU_ascii_cons _ _ (by split_ifs <;> omega), ih]
    · rw [encodeU_cons, lowerAscii_append,
        lowerAscii_high_id (encodeChar c) (encodeChar_high c (by omega)), ih]
      show _ = encodeU ((if 65 ≤ c ∧ c ≤ 90 then c + 32 else c) :: lowerAscii t)
      rw [if_neg (by omega), encodeU_cons]

theorem isAuthLine_encode (l : Str) : isAuthLine (encodeU l) = isAuthLine l := by
  rw [isAuthLine, isAuthLine, lowerAscii_encode,
    ascii_isPrefixOf_encode authPat (by decide) (lowerAscii l)]

theorem containsCRLF_decomp (s : Str) : containsCRLF s = true →
    ∃ a b, s = a ++ 13 :: 10 :: b ∧ containsCRLF a = false := by
  induction s using containsCRLF.induct with
  | case1 => intro h; simp [containsCRLF] at h
  | case2 a => intro h; simp [containsCRLF] at h
  | case3 a b t ih =>
    intro h
    rw [containsCRLF] at h
    by_cases hab : a = 13 ∧ b = 10
    · exact ⟨[], t, by simp [hab.1, hab.2], rfl⟩
    · have h2 : containsCRLF (b :: t) = true := by
        simp only [Bool.or_eq_true, Bool.and_eq_true, decide_eq_true_eq] at h
        rcases h with hfst | h2
        · exact absurd hfst hab
        · exact h2
      obtain ⟨x, y, hxy, hx⟩ := ih h2
      cases x with
      | nil =>
        rw [List.nil_append] at hxy
        injection hxy with hbv htv
        refine ⟨[a], y, ?_, rfl⟩
        rw [hbv, htv]
        rfl
      | cons z x2 =>
        injection hxy with hbv htv
        subst hbv
        subst htv
        refine ⟨a :: b :: x2, y, by simp, ?_⟩
        rw [containsCRLF]
        have hf : (decide (a = 13) && decide (b = 10)) = false := by
          rcases Decidable.em (a = 13) with h13 | h13 <;>
            rcases Decidable.em (b = 10) with hz | hz <;> simp_all
        rw [hf, Bool.false_or]
        exact hx

theorem splitCRLF_encode_bounded :
    ∀ n (m : Str), m.length ≤ n → splitCRLF (encodeU m) = (splitCRLF m).map encodeU := by
  intro n
  induction n with
  | zero =>
    intro m hl
    have hm : m = [] := List.eq_nil_of_length_eq_zero (Nat.le_zero.mp hl)
    subst hm
    rfl
  | succ n ih =>
    intro m hl
    by_cases hc : containsCRLF m = true
    · obtain ⟨a, b, he, ha⟩ := containsCRLF_decomp m hc
      subst he
      have henc : encodeU (a ++ 13 :: 10 :: b) = encodeU a ++ 13 :: 10 :: encodeU b := by
        rw [encodeU_append, encodeU_ascii_cons 13 _ (by omega),
          encodeU_ascii_cons 10 _ (by omega)]
      rw [henc]
      rw [splitCRLF_append _ _ (by rw [containsCRLF_encode]; exact ha)]
      rw [splitCRLF_append _ _ ha]
      rw [ih b (by simp only [List.length_append, List.length_cons] at hl; omega)]
      rfl
    · have hc2 : containsCRLF m = false := by simpa using hc
      rw [splitCRLF_no_crlf _ hc2, splitCRLF_no_crlf _ (by rw [containsCRLF_encode]; exact hc2)]
      rfl

theorem splitCRLF_encode (cps : Str) :
    splitCRLF (encodeU cps) = (splitCRLF cps).map encodeU :=
  splitCRLF_encode_bounded cps.length cps le_rfl

theorem splitCRLF_mem_subset (s : Str) : ∀ l ∈ splitCRLF s, ∀ c ∈ l, c ∈ s := by
  induction s using splitCRLF.induct with
  | case1 =>
    intro l hl c hc
    simp [splitCRLF] at hl
    subst hl
    simp at hc
  | case2 a =>
    intro l hl c hc
    simp [splitCRLF] at hl
    subst hl
    simpa using hc
  | case3 a b t h ih =>
    intro l hl c hc
    rw [splitCRLF, if_pos h] at hl
    rcases List.mem_cons.mp hl with rfl | hl2
    · simp at hc
    · have := ih l hl2 c hc
      exact List.mem_cons_of_mem _ (List.mem_cons_of_mem _ this)
  | case4 a b t h he ih => exact absurd he (splitCRLF_ne_nil _)
  | case5 a b t h hd r he ih =>
    intro l hl c hc
    rw [splitCRLF, if_neg h, he] at hl
    rcases List.mem_cons.mp hl with rfl | hl2
    · rcases List.mem_cons.mp hc with rfl | hc2
      · simp
      · have := ih hd (by rw [he]; simp) c hc2
        exact List.mem_cons_of_mem _ this
    · have hmem : l ∈ splitCRLF (b :: t) := by
        rw [he]
        exact List.mem_cons_of_mem _ hl2
      exact List.mem_cons_of_mem _ (ih l hmem c hc)

theorem buildHeaderLines_mem (ls : List Str) :
    ∀ c ∈ buildHeaderLines ls, (∃ l ∈ ls, c ∈ l) ∨ c ∈ CRLF := by
  induction ls with
  | nil =>
    intro c hc
    simp [buildHeaderLines] at hc
  | cons l t ih =>
    intro c hc
    rw [buildHeaderLines] at hc
    rcases List.mem_append.mp hc with h1 | h2
    · by_cases hl : l = []
      · rw [if_pos hl] at h1
        simp at h1
      · rw [if_neg hl] at h1
        rcases List.mem_append.mp h1 with hla | hcr
        · exact Or.inl ⟨l, by simp, hla⟩
        · exact Or.inr hcr
    · rcases ih c h2 with ⟨l2, hl2, hc2⟩ | hcr
      · exact Or.inl ⟨l2, List.mem_cons_of_mem _ hl2, hc2⟩
      · exact Or.inr hcr

theorem encodeU_joinTerm (F : List Str) :
    encodeU (joinTerm F) = joinTerm (F.map encodeU) := by
  induction F with
  | nil => rfl
  | cons p t ih =>
    rw [joinTerm, encodeU_append, encodeU_append, show encodeU CRLF = CRLF from rfl, ih]
    rfl

theorem flatten_map_crlf (F : List Str) :
    (F.map (fun l => l ++ CRLF)).flatten = joinTerm F := by
  induction F with
  | nil => rfl
  | cons p t ih =>
    simp only [List.map_cons, List.flatten_cons, joinTerm, ih]

theorem headD_map_encode (l : List Str) : ((l.map encodeU).headD []) = encodeU (l.headD []) := by
  cases l <;> rfl

theorem tail_map_encode (l : List Str) : (l.map encodeU).tail = l.tail.map encodeU := by
  cases l <;> rfl

theorem forwarded_eq_expected (hb auth : Str)
    (hauth : ∀ c ∈ auth, c ≤ 127)
    (hv : validU hb = true)
    (hlines : ∀ l ∈ (splitCRLF hb).tail, l ≠ []) :
    forwardedHeaderBytes hb auth = expectedHeaderBytes hb auth := by
  have hrt : encodeU (decodeU hb) = hb := utf8_roundtrip hb hv
  have hsplit : splitCRLF hb = (splitCRLF (decodeU hb)).map encodeU := by
    conv_lhs => rw [← hrt]
    exact splitCRLF_encode (decodeU hb)
  have hlinesT : ∀ l ∈ (splitCRLF (decodeU hb)).tail, l ≠ [] := by
    intro l hl hnil
    subst hnil
    have hmem : ([] : Str) ∈ (splitCRLF hb).tail := by
      rw [hsplit, tail_map_encode]
      exact List.mem_map.mpr ⟨[], hl, rfl⟩
    exact hlines [] hmem rfl
  have hFTne : ∀ l ∈ ((splitCRLF (decodeU hb)).tail).filter (fun l => !(isAuthLine l)), l ≠ [] :=
    fun l hl => hlinesT l (List.mem_filter.mp hl).1
  have hFB : ((splitCRLF hb).tail).filter (fun l => !(isAuthLine l))
      = (((splitCRLF (decodeU hb)).tail).filter (fun l => !(isAuthLine l))).map encodeU := by
    rw [hsplit, tail_map_encode, List.filter_map]
    congr 1
    apply List.filter_congr
    intro x _
    simp only [Function.comp_apply, isAuthLine_encode]
  have hHB : (splitCRLF hb).headD [] = encodeU ((splitCRLF (decodeU hb)).headD []) := by
    rw [hsplit, headD_map_encode]
  rw [forwardedHeaderBytes, rewriteRequest, buildHeaderLines_eq_joinTerm _ hFTne]
  rw [encodeU_append, encodeU_append, encodeU_append, encodeU_append]
  rw [show encodeU CRLF = CRLF from rfl, encodeU_ascii_id auth hauth, encodeU_joinTerm]
  rw [expectedHeaderBytes, flatten_map_crlf, hFB, hHB]

/-- C10, counterexample to the claim as stated.  The block
`X\r\nProxy-Authorization: <0x80>` is invalid UTF-8, yet the forwarded
header bytes equal the original non-auth header bytes, because the
invalid byte lies inside the dropped Proxy-Authorization line; so
byte-equality does not hold *only* for valid-UTF-8 blocks. -/
theorem claim_C10_counterexample :
    validU (s2n "X\r\nProxy-Authorization: " ++ [128]) = false ∧
    forwardedHeaderBytes (s2n "X\r\nProxy-Authorization: " ++ [128]) []
      = expectedHeaderBytes (s2n "X\r\nProxy-Authorization: " ++ [128]) [] :=
  ⟨by decide, by decide⟩

/-- C10, amended.  The rewriter decodes the client's header block as
UTF-8 with replacement, re-encodes it before forwarding, and drops empty
header lines.  Consequently (for an ASCII configured auth text, the shape
`make_auth_header` produces): the forwarded header bytes are always
valid UTF-8; any block that is invalid UTF-8 decodes with U+FFFD
replacing invalid bytes (so invalid byte sequences never reach the
upstream unmodified); and the forwarded header bytes equal the original
non-auth header bytes for every block that is valid UTF-8 with no empty
interior lines — though equality can also hold for some invalid blocks,
namely when the invalid bytes lie entirely inside dropped
Proxy-Authorization lines.  The header part of the bytes sent upstream
is exactly this decode-rewrite-encode image, followed by the raw body
bytes. -/
theorem claim_C10_amended (hb auth : Str) (hauth : ∀ c ∈ auth, c ≤ 127) :
    (∀ data : Str, upstreamPayload data auth
        = forwardedHeaderBytes (data.take (idxCRLFCRLF data)) auth
            ++ data.drop (idxCRLFCRLF data + 4))
    ∧ validU (forwardedHeaderBytes hb auth) = true
    ∧ (validU hb = false → FFFD ∈ decodeU hb)
    ∧ (validU hb = true → (∀ l ∈ (splitCRLF hb).tail, l ≠ []) →
        forwardedHeaderBytes hb auth = expectedHeaderBytes hb auth) := by
  refine ⟨fun data => rfl, ?_, decodeU_replacement hb, forwarded_eq_expected hb auth hauth⟩
  rw [forwardedHeaderBytes]
  apply validU_encodeU
  intro c hc
  rw [rewriteRequest] at hc
  have hcrlf : ∀ d ∈ CRLF, isScalar d = true := by decide
  have hlines_mem : ∀ l ∈ splitCRLF (decodeU hb), ∀ d ∈ l, isScalar d = true := by
    intro l hl d hd
    exact decodeU_scalars hb d (splitCRLF_mem_subset _ l hl d hd)
  have hhead : ∀ d ∈ (splitCRLF (decodeU hb)).headD [], isScalar d = true := by
    cases hL : splitCRLF (decodeU hb) with
    | nil => exact absurd hL (splitCRLF_ne_nil _)
    | cons h r =>
      intro d hd
      exact hlines_mem h (by rw [hL]; simp) d hd
  rcases List.mem_append.mp hc with hc1 | hc2
  · rcases List.mem_append.mp hc1 with hc3 | hc4
    · rcases List.mem_append.mp hc3 with hc5 | hc6
      · rcases List.mem_append.mp hc5 with hc7 | hc8
        · exact hhead c hc7
        · exact hcrlf c hc8
      · have := hauth c hc6
        simp only [isScalar, decide_eq_true_eq]
        omega
    · rcases buildHeaderLines_mem _ c hc4 with ⟨l, hl, hcl⟩ | hcr
      · have hl2 : l ∈ (splitCRLF (decodeU hb)).tail := (List.mem_filter.mp hl).1
        exact hlines_mem l (List.mem_of_mem_tail hl2) c hcl
      · exact hcrlf c hcr
  · exact hcrlf c hc2

/-- C10, witness: a valid ASCII block with a non-empty auth line. -/
theorem claim_C10_witness :
    forwardedHeaderBytes (s2n "GET / HTTP/1.1\r\nHost: x")
        (s2n "Proxy-Authorization: Basic Zm9v\r\n")
      = expectedHeaderBytes (s2n "GET / HTTP/1.1\r\nHost: x")
        (s2n "Proxy-Authorization: Basic Zm9v\r\n") :=
  (claim_C10_amended (s2n "GET / HTTP/1.1\r\nHost: x")
      (s2n "Proxy-Authorization: Basic Zm9v\r\n") (by decide)).2.2.2 (by decide) (by decide)

/- thms-end -/
end ProxyRelay
